import Mathlib

/-!
Verification of the PASTURE orchestration core (src/pasture_core.py, with the
variant src/pasture.py where a claim cites it).  The Python code is embedded
shallowly: JSON values are an inductive type, `json.loads` / `json.dumps` are
modelled on the JSON grammar Python's `json` module accepts (numbers are kept
as their lexemes; numeric equality is lexeme equality, which is all the
development needs), dictionaries are association lists with Python's
insert-or-overwrite-in-place semantics, exceptions are `Option`/`Except`,
wall-clock readings are abstract parameters, and HTTP results are oracle
parameters.  Recursive functions take explicit fuel so that every definition
is structural and kernel-evaluable on concrete inputs.
-/

set_option maxRecDepth 4000

namespace Pasture

/-- Double-quote character. -/
def qc : Char := Char.ofNat 34

/-- Single-quote (apostrophe) character. -/
def apos : Char := Char.ofNat 39

/-- Opening curly brace. -/
def lbrace : Char := Char.ofNat 123

/-- Closing curly brace. -/
def rbrace : Char := Char.ofNat 125

/-- Backslash character. -/
def bslash : Char := Char.ofNat 92

/-- Backtick character. -/
def btick : Char := Char.ofNat 96

mutual

/-- JSON values, as produced by Python's `json.loads`.  Numbers keep their
source lexeme (the development never needs Python's numeric coercions, only
syntactic identity of numerals).  Objects are association lists in Python dict
insertion order.  Arrays and objects carry their own list types so the
inductive is mutual rather than nested, keeping structural recursion and
derived decidable equality available. -/
inductive Json where
  | null : Json
  | bool (b : Bool) : Json
  | num (lexeme : List Char) : Json
  | str (chars : List Char) : Json
  | arr (elems : JsonList) : Json
  | obj (fields : JsonFields) : Json

/-- A list of JSON values (the payload of `Json.arr`). -/
inductive JsonList where
  | nil : JsonList
  | cons (hd : Json) (tl : JsonList) : JsonList

/-- The fields of a JSON object, in Python dict insertion order. -/
inductive JsonFields where
  | nil : JsonFields
  | cons (key : List Char) (val : Json) (tl : JsonFields) : JsonFields

end

deriving instance DecidableEq for Json
deriving instance DecidableEq for JsonList
deriving instance DecidableEq for JsonFields

/-- Build object fields from an ordinary list of pairs. -/
def fieldsOf : List (List Char × Json) → JsonFields
  | [] => .nil
  | (k, v) :: rest => .cons k v (fieldsOf rest)

/-- Build a JSON array from an ordinary list. -/
def jlistOf : List Json → JsonList
  | [] => .nil
  | x :: rest => .cons x (jlistOf rest)

/-- Append one value at the end of a JSON list. -/
def JsonList.snoc : JsonList → Json → JsonList
  | .nil, x => .cons x .nil
  | .cons h t, x => .cons h (t.snoc x)

/-- Python dict insertion: overwrite in place if the key exists, else append
(the semantics of `d[k] = v`). -/
def pyInsert (k : List Char) (v : Json) : JsonFields → JsonFields
  | .nil => .cons k v .nil
  | .cons k' v' rest => if k' = k then .cons k v rest else .cons k' v' (pyInsert k v rest)

/-- Lookup in object fields (Python `d[k]`, `d.get(k)`). -/
def pyLookup (k : List Char) : JsonFields → Option Json
  | .nil => none
  | .cons k' v' rest => if k' = k then some v' else pyLookup k rest

/-- Whether a Python dict has a key (`k in d`). -/
def pyHasKey (k : List Char) (l : JsonFields) : Bool :=
  (pyLookup k l).isSome

/-- Whether a JSON value is an object (Python `isinstance(x, dict)`). -/
def isObjectJ : Json → Bool
  | .obj _ => true
  | _ => false

/-- Whether object fields are empty. -/
def JsonFields.isNil : JsonFields → Bool
  | .nil => true
  | .cons _ _ _ => false

/-- Whether a JSON list is empty. -/
def JsonList.isNil : JsonList → Bool
  | .nil => true
  | .cons _ _ => false

/-- The whitespace characters Python's `json` module skips between tokens. -/
def isJsonWs (c : Char) : Bool :=
  c = ' ' || c = Char.ofNat 9 || c = Char.ofNat 10 || c = Char.ofNat 13

/-- The ASCII whitespace characters of Python's `str.strip()` and of `\s` in
Python regular expressions over ASCII text. -/
def isPyWs (c : Char) : Bool :=
  c = ' ' || c = Char.ofNat 9 || c = Char.ofNat 10 || c = Char.ofNat 13 ||
    c = Char.ofNat 11 || c = Char.ofNat 12

/-- Drop leading JSON whitespace. -/
def skipWs : List Char → List Char
  | [] => []
  | c :: rest => if isJsonWs c then skipWs rest else c :: rest

/-- Python `str.strip()`: drop whitespace from both ends. -/
def pyStrip (s : List Char) : List Char :=
  ((s.dropWhile isPyWs).reverse.dropWhile isPyWs).reverse

/-- Match a literal prefix, returning the rest of the input on success. -/
def parseLit : List Char → List Char → Option (List Char)
  | [], s => some s
  | _ :: _, [] => none
  | l :: ls, c :: cs => if c = l then parseLit ls cs else none

/-- ASCII decimal digit test. -/
def isDigitC (c : Char) : Bool := '0' ≤ c && c ≤ '9'

/-- ASCII hexadecimal digit test. -/
def isHexC (c : Char) : Bool :=
  isDigitC c || ('a' ≤ c && c ≤ 'f') || ('A' ≤ c && c ≤ 'F')

/-- Value of a hexadecimal digit. -/
def hexVal (c : Char) : Nat :=
  if isDigitC c then c.toNat - '0'.toNat
  else if 'a' ≤ c && c ≤ 'f' then c.toNat - 'a'.toNat + 10
  else c.toNat - 'A'.toNat + 10

/-- Take a maximal run of decimal digits. -/
def takeDigits : List Char → List Char × List Char
  | [] => ([], [])
  | c :: rest =>
    if isDigitC c then
      let (ds, r) := takeDigits rest
      (c :: ds, r)
    else ([], c :: rest)

/-- Parse the integer part of a JSON number after an optional sign:
`0` alone or a nonzero digit followed by digits (the strict grammar of
Python's `json` module). -/
def parseIntPart : List Char → Option (List Char × List Char)
  | [] => none
  | c :: rest =>
    if c = '0' then some ([c], rest)
    else if isDigitC c then
      let (ds, r) := takeDigits rest
      some (c :: ds, r)
    else none

/-- Parse the optional fraction part `.digits` of a JSON number. -/
def parseFracPart : List Char → List Char × List Char
  | [] => ([], [])
  | c :: rest =>
    if c = '.' then
      match rest with
      | [] => ([], c :: rest)
      | d :: _ =>
        if isDigitC d then
          let (ds, r) := takeDigits rest
          (c :: ds, r)
        else ([], c :: rest)
    else ([], c :: rest)

/-- Parse the optional exponent part `[eE][+-]?digits` of a JSON number. -/
def parseExpPart : List Char → List Char × List Char
  | [] => ([], [])
  | c :: rest =>
    if c = 'e' || c = 'E' then
      match rest with
      | [] => ([], c :: rest)
      | d :: rest2 =>
        if isDigitC d then
          let (ds, r) := takeDigits rest2
          (c :: d :: ds, r)
        else if d = '+' || d = '-' then
          match rest2 with
          | [] => ([], c :: rest)
          | d2 :: _ =>
            if isDigitC d2 then
              let (ds, r) := takeDigits rest2
              (c :: d :: ds, r)
            else ([], c :: rest)
        else ([], c :: rest)
    else ([], c :: rest)

/-- Parse a JSON number lexeme (Python's `json` also accepts `NaN`,
`Infinity` and `-Infinity`; those are matched in `parseValue`). -/
def parseNumber (s : List Char) : Option (List Char × List Char) :=
  match s with
  | [] => none
  | c :: rest =>
    if c = '-' then
      match parseIntPart rest with
      | none => none
      | some (ip, r1) =>
        let (fp, r2) := parseFracPart r1
        let (ep, r3) := parseExpPart r2
        some (c :: (ip ++ fp ++ ep), r3)
    else
      match parseIntPart (c :: rest) with
      | none => none
      | some (ip, r1) =>
        let (fp, r2) := parseFracPart r1
        let (ep, r3) := parseExpPart r2
        some (ip ++ fp ++ ep, r3)

/-- Parse the body of a JSON string after the opening quote, decoding escape
sequences; rejects raw control characters (Python's default `strict=True`). -/
def parseStringBody : List Char → Option (List Char × List Char)
  | [] => none
  | c :: rest =>
    if c = qc then some ([], rest)
    else if c = bslash then
      match rest with
      | [] => none
      | e :: rest2 =>
        if e = qc || e = bslash || e = '/' then
          (parseStringBody rest2).map (fun (s, r) => (e :: s, r))
        else if e = 'b' then
          (parseStringBody rest2).map (fun (s, r) => (Char.ofNat 8 :: s, r))
        else if e = 'f' then
          (parseStringBody rest2).map (fun (s, r) => (Char.ofNat 12 :: s, r))
        else if e = 'n' then
          (parseStringBody rest2).map (fun (s, r) => (Char.ofNat 10 :: s, r))
        else if e = 'r' then
          (parseStringBody rest2).map (fun (s, r) => (Char.ofNat 13 :: s, r))
        else if e = 't' then
          (parseStringBody rest2).map (fun (s, r) => (Char.ofNat 9 :: s, r))
        else if e = 'u' then
          match rest2 with
          | h1 :: h2 :: h3 :: h4 :: rest3 =>
            if isHexC h1 && isHexC h2 && isHexC h3 && isHexC h4 then
              let n := ((hexVal h1 * 16 + hexVal h2) * 16 + hexVal h3) * 16 + hexVal h4
              (parseStringBody rest3).map (fun (s, r) => (Char.ofNat n :: s, r))
            else none
          | _ => none
        else none
    else if c.toNat < 32 then none
    else (parseStringBody rest).map (fun (s, r) => (c :: s, r))

mutual

/-- Recursive-descent JSON value parser mirroring what Python's `json.loads`
accepts; fuel makes the nesting recursion structural. -/
def parseValue : Nat → List Char → Option (Json × List Char)
  | 0, _ => none
  | fuel + 1, s =>
    match s with
    | [] => none
    | c :: rest =>
      if c = lbrace then
        (parseObjBody fuel (skipWs rest) .nil).map (fun (fs, r) => (Json.obj fs, r))
      else if c = '[' then parseArrBody fuel (skipWs rest) .nil
      else if c = qc then
        (parseStringBody rest).map (fun (str, r) => (Json.str str, r))
      else if c = 't' then
        (parseLit ['r', 'u', 'e'] rest).map (fun r => (Json.bool true, r))
      else if c = 'f' then
        (parseLit ['a', 'l', 's', 'e'] rest).map (fun r => (Json.bool false, r))
      else if c = 'n' then
        (parseLit ['u', 'l', 'l'] rest).map (fun r => (Json.null, r))
      else if c = 'N' then
        (parseLit ['a', 'N'] rest).map (fun r => (Json.num ['N', 'a', 'N'], r))
      else if c = 'I' then
        (parseLit ['n', 'f', 'i', 'n', 'i', 't', 'y'] rest).map
          (fun r => (Json.num ('I' :: ['n', 'f', 'i', 'n', 'i', 't', 'y']), r))
      else if c = '-' then
        match rest with
        | 'I' :: rest2 =>
          (parseLit ['n', 'f', 'i', 'n', 'i', 't', 'y'] rest2).map
            (fun r => (Json.num ('-' :: 'I' :: ['n', 'f', 'i', 'n', 'i', 't', 'y']), r))
        | _ => (parseNumber s).map (fun (lex, r) => (Json.num lex, r))
      else
        (parseNumber s).map (fun (lex, r) => (Json.num lex, r))

/-- Parse the members of an object after `{` (whitespace already skipped),
accumulating fields with Python dict semantics; the fields are wrapped into
`Json.obj` by the caller. -/
def parseObjBody : Nat → List Char → JsonFields → Option (JsonFields × List Char)
  | 0, _, _ => none
  | fuel + 1, s, acc =>
    match s with
    | [] => none
    | c :: rest =>
      if c = rbrace then
        if acc.isNil then some (.nil, rest) else none
      else if c = qc then
        match parseStringBody rest with
        | none => none
        | some (key, r1) =>
          match skipWs r1 with
          | [] => none
          | c2 :: r2 =>
            if c2 = ':' then
              match parseValue fuel (skipWs r2) with
              | none => none
              | some (v, r3) =>
                parseObjTail fuel (skipWs r3) (pyInsert key v acc)
            else none
      else none

/-- After one object member: expect `,` and another member, or `}`. -/
def parseObjTail : Nat → List Char → JsonFields → Option (JsonFields × List Char)
  | 0, _, _ => none
  | fuel + 1, s, acc =>
    match s with
    | [] => none
    | c :: rest =>
      if c = rbrace then some (acc, rest)
      else if c = ',' then
        match skipWs rest with
        | [] => none
        | c2 :: r2 =>
          if c2 = qc then
            match parseStringBody r2 with
            | none => none
            | some (key, r3) =>
              match skipWs r3 with
              | [] => none
              | c3 :: r4 =>
                if c3 = ':' then
                  match parseValue fuel (skipWs r4) with
                  | none => none
                  | some (v, r5) =>
                    parseObjTail fuel (skipWs r5) (pyInsert key v acc)
                else none
          else none
      else none

/-- Parse the elements of an array after `[` (whitespace already skipped). -/
def parseArrBody : Nat → List Char → JsonList → Option (Json × List Char)
  | 0, _, _ => none
  | fuel + 1, s, acc =>
    match s with
    | [] => none
    | c :: rest =>
      if c = ']' then
        if acc.isNil then some (Json.arr .nil, rest) else none
      else
        match parseValue fuel s with
        | none => none
        | some (v, r1) => parseArrTail fuel (skipWs r1) (acc.snoc v)

/-- After one array element: expect `,` and another element, or `]`. -/
def parseArrTail : Nat → List Char → JsonList → Option (Json × List Char)
  | 0, _, _ => none
  | fuel + 1, s, acc =>
    match s with
    | [] => none
    | c :: rest =>
      if c = ']' then some (Json.arr acc, rest)
      else if c = ',' then
        match parseValue fuel (skipWs rest) with
        | none => none
        | some (v, r1) => parseArrTail fuel (skipWs r1) (acc.snoc v)
      else none

end

/-- `json.loads`: parse a complete JSON document, allowing surrounding
whitespace; `none` models a raised `JSONDecodeError`. -/
def jsonLoads (s : List Char) : Option Json :=
  match parseValue (2 * s.length + 8) (skipWs s) with
  | none => none
  | some vr => if skipWs vr.2 = [] then some vr.1 else none

/-- Join chunks with a separator. -/
def joinSep (sep : List Char) : List (List Char) → List Char
  | [] => []
  | [x] => x
  | x :: y :: rest => x ++ sep ++ joinSep sep (y :: rest)

/-- Lowercase hexadecimal digit. -/
def hexDigit (n : Nat) : Char :=
  if n < 10 then Char.ofNat (48 + n) else Char.ofNat (97 + n - 10)

/-- Four-digit lowercase hex rendering of a code point (for escapes). -/
def hex4 (n : Nat) : List Char :=
  [hexDigit (n / 4096 % 16), hexDigit (n / 256 % 16), hexDigit (n / 16 % 16), hexDigit (n % 16)]

/-- Escape one character as `json.dumps` does with its default
`ensure_ascii=True` (code points above the BMP, which would need surrogate
pairs, do not occur in this development). -/
def dumpsEscChar (c : Char) : List Char :=
  if c = qc then [bslash, qc]
  else if c = bslash then [bslash, bslash]
  else if c = Char.ofNat 10 then [bslash, 'n']
  else if c = Char.ofNat 13 then [bslash, 'r']
  else if c = Char.ofNat 9 then [bslash, 't']
  else if c = Char.ofNat 8 then [bslash, 'b']
  else if c = Char.ofNat 12 then [bslash, 'f']
  else if c.toNat < 32 || c.toNat > 126 then bslash :: 'u' :: hex4 c.toNat
  else [c]

/-- Serialize a string as a JSON string literal (`json.dumps` style). -/
def dumpsString (s : List Char) : List Char :=
  qc :: (s.flatMap dumpsEscChar) ++ [qc]

mutual

/-- `json.dumps` with its default settings: separators `", "` and `": "`,
`ensure_ascii=True`, and NO key sorting (Python's default `sort_keys=False`)
so object fields are emitted in dict insertion order.  Number values are
emitted as their stored lexeme. -/
def jsonDumps : Json → List Char
  | .null => "null".toList
  | .bool true => "true".toList
  | .bool false => "false".toList
  | .num lex => lex
  | .str s => dumpsString s
  | .arr elems => '[' :: dumpsElems elems ++ [']']
  | .obj fields => lbrace :: dumpsFields fields ++ [rbrace]

/-- Serialize array elements, comma-separated. -/
def dumpsElems : JsonList → List Char
  | .nil => []
  | .cons x .nil => jsonDumps x
  | .cons x (.cons y t) => jsonDumps x ++ ',' :: ' ' :: dumpsElems (.cons y t)

/-- Serialize object fields, comma-separated, in insertion order. -/
def dumpsFields : JsonFields → List Char
  | .nil => []
  | .cons k v .nil => dumpsString k ++ ':' :: ' ' :: jsonDumps v
  | .cons k v (.cons k2 v2 t) =>
    dumpsString k ++ ':' :: ' ' :: jsonDumps v ++ ',' :: ' ' ::
      dumpsFields (.cons k2 v2 t)

end

/-- Escape one character as it appears inside a single-quoted Python `repr`. -/
def reprEscChar (c : Char) : List Char :=
  if c = bslash then [bslash, bslash]
  else if c = apos then [bslash, apos]
  else if c = Char.ofNat 10 then [bslash, 'n']
  else if c = Char.ofNat 13 then [bslash, 'r']
  else if c = Char.ofNat 9 then [bslash, 't']
  else [c]

mutual

/-- Python `repr` of a JSON value, on the fragment the development needs:
strings are rendered single-quoted (Python switches to double quotes only for
strings that contain an apostrophe and no double quote; that cosmetic case is
not needed here), numbers render as their lexeme, and containers render with
`", "`/`": "` separators exactly as Python's `repr` of lists and dicts. -/
def pyRepr : Json → List Char
  | .null => ['N', 'o', 'n', 'e']
  | .bool true => ['T', 'r', 'u', 'e']
  | .bool false => ['F', 'a', 'l', 's', 'e']
  | .num lex => lex
  | .str s => apos :: (s.flatMap reprEscChar) ++ [apos]
  | .arr elems => '[' :: pyReprElems elems ++ [']']
  | .obj fields => lbrace :: pyReprFields fields ++ [rbrace]

/-- `repr` of list elements. -/
def pyReprElems : JsonList → List Char
  | .nil => []
  | .cons x .nil => pyRepr x
  | .cons x (.cons y t) => pyRepr x ++ ',' :: ' ' :: pyReprElems (.cons y t)

/-- `repr` of dict items. -/
def pyReprFields : JsonFields → List Char
  | .nil => []
  | .cons k v .nil => pyRepr (.str k) ++ ':' :: ' ' :: pyRepr v
  | .cons k v (.cons k2 v2 t) =>
    pyRepr (.str k) ++ ':' :: ' ' :: pyRepr v ++ ',' :: ' ' ::
      pyReprFields (.cons k2 v2 t)

end

/-- Python `str()` of a JSON value: identity on strings, `repr` otherwise. -/
def pyStr : Json → List Char
  | .str s => s
  | j => pyRepr j

/-!  The JSONProcessor (src/pasture_core.py:240-331). -/

/-- `JSONProcessor.is_valid_json` (src/pasture_core.py:243-250): a strict
parse attempt. -/
def is_valid_json (s : List Char) : Bool :=
  (jsonLoads s).isSome

/-- Word-constituent characters of the regex `\w` on ASCII text. -/
def isWordC (c : Char) : Bool :=
  ('a' ≤ c && c ≤ 'z') || ('A' ≤ c && c ≤ 'Z') || isDigitC c || c = '_'

/-- The triple-backtick fence. -/
def ticks : List Char := [btick, btick, btick]

/-- Helper for the fenced regex `r1`: after the group's closing brace, the
pattern requires optional whitespace and then the closing fence; returns the
input remaining after the fence. -/
def fencedTail (r : List Char) : Option (List Char) :=
  parseLit ticks (r.dropWhile isPyWs)

/-- The lazy body `[\s\S]*?}` of the fenced pattern: scan for the first
closing brace whose tail matches `\s*` followed by the closing fence, as the
backtracking engine does when growing a lazy star. -/
def fencedBody : List Char → Option (List Char × List Char)
  | [] => none
  | c :: r =>
    if c = rbrace then
      match fencedTail r with
      | some rest => some ([c], rest)
      | none => (fencedBody r).map (fun (b, rest) => (c :: b, rest))
    else (fencedBody r).map (fun (b, rest) => (c :: b, rest))

/-- Try to match the fenced pattern ```` ```(?:json)?\s*({[\s\S]*?})\s*``` ````
anchored at the head of the input; on success return the captured group and
the input remaining after the whole match.  The optional `json` tag is tried
greedily first, as the regex engine does. -/
def fencedAt (s : List Char) : Option (List Char × List Char) :=
  match parseLit ticks s with
  | none => none
  | some r0 =>
    let attempt : List Char → Option (List Char × List Char) := fun r =>
      match r.dropWhile isPyWs with
      | [] => none
      | c :: r2 =>
        if c = lbrace then
          (fencedBody r2).map (fun (b, rest) => (c :: b, rest))
        else none
    match parseLit ['j', 's', 'o', 'n'] r0 with
    | some r1 =>
      match attempt r1 with
      | some g => some g
      | none => attempt r0
    | none => attempt r0

/-- `re.findall` of the fenced pattern: non-overlapping leftmost matches,
scanning resumes after each match.  Fuel is the input length. -/
def fencedMatches : Nat → List Char → List (List Char)
  | 0, _ => []
  | _ + 1, [] => []
  | fuel + 1, c :: r =>
    match fencedAt (c :: r) with
    | some (g, rest) => g :: fencedMatches fuel rest
    | none => fencedMatches fuel r

/-- The lazy `[\s\S]*?}` of the naked pattern `({[\s\S]*?})`: everything up to
and including the first closing brace. -/
def toFirstRbrace : List Char → Option (List Char × List Char)
  | [] => none
  | c :: r =>
    if c = rbrace then some ([c], r)
    else (toFirstRbrace r).map (fun (seg, rest) => (c :: seg, rest))

/-- `re.findall` of the naked pattern `({[\s\S]*?})`: each match runs from an
opening brace to the first closing brace after it; scanning resumes after the
match. -/
def nakedMatches : Nat → List Char → List (List Char)
  | 0, _ => []
  | _ + 1, [] => []
  | fuel + 1, c :: r =>
    if c = lbrace then
      match toFirstRbrace r with
      | some (seg, rest) => (c :: seg) :: nakedMatches fuel rest
      | none => nakedMatches fuel r
    else nakedMatches fuel r

/-- First match that is itself valid JSON. -/
def firstValid (l : List (List Char)) : Option (List Char) :=
  l.find? is_valid_json

/-- `JSONProcessor.extract_json` (src/pasture_core.py:252-273): first valid
JSON object inside a fenced code block, else the first valid naked
`{...}` match, else `none`. -/
def extract_json (text : List Char) : Option (List Char) :=
  match firstValid (fencedMatches (text.length + 1) text) with
  | some m => some m
  | none => firstValid (nakedMatches (text.length + 1) text)

/-- `fixed.replace("'", '"')`: every single quote becomes a double quote. -/
def replaceQuotes (s : List Char) : List Char :=
  s.map (fun c => if c = apos then qc else c)

/-- `re.sub(r',\s*([\]}])', r'\1', fixed)`: delete a comma (and the
whitespace after it) that directly precedes a closing bracket or brace;
scanning resumes after each replaced region. -/
def removeTrailingCommas : Nat → List Char → List Char
  | 0, s => s
  | _ + 1, [] => []
  | fuel + 1, c :: r =>
    if c = ',' then
      match (r.dropWhile isPyWs).head? with
      | some b =>
        if b = ']' || b = rbrace then
          b :: removeTrailingCommas fuel ((r.dropWhile isPyWs).tail)
        else c :: removeTrailingCommas fuel r
      | none => c :: removeTrailingCommas fuel r
    else c :: removeTrailingCommas fuel r

/-- `re.sub(r'(\w+)(?=\s*:)', r'"\1"', fixed)`: a maximal word-character run
followed (after optional whitespace, not consumed) by a colon is wrapped in
double quotes; a run whose lookahead fails is copied unchanged, since every
suffix of the run sees the same lookahead. -/
def quoteBareKeys : Nat → List Char → List Char
  | 0, s => s
  | _ + 1, [] => []
  | fuel + 1, c :: r =>
    if isWordC c then
      let run := c :: r.takeWhile isWordC
      let rest := r.dropWhile isWordC
      if (rest.dropWhile isPyWs).head? = some ':' then
        qc :: run ++ qc :: quoteBareKeys fuel rest
      else
        run ++ quoteBareKeys fuel rest
    else c :: quoteBareKeys fuel r

/-- The escaping inside `repair_json`'s wrap branch:
`fixed.replace('"', '\\"').replace('\n', '\\n')`. -/
def escapeForWrap (s : List Char) : List Char :=
  s.flatMap (fun c =>
    if c = qc then [bslash, qc]
    else if c = Char.ofNat 10 then [bslash, 'n']
    else [c])

/-- The wrap branch of `repair_json`: `{"response": "<content>"}`. -/
def wrapResponse (s : List Char) : List Char :=
  lbrace :: qc :: "response".toList ++ qc :: ':' :: ' ' :: qc ::
    escapeForWrap s ++ [qc, rbrace]

/-- `JSONProcessor.repair_json` (src/pasture_core.py:275-304): strip, extract
an embedded JSON block if any, turn single quotes into double quotes, delete
trailing commas, double-quote bare keys, wrap non-object-shaped text as
`{"response": ...}`, then validate; `Except.error` models the re-raised
`JSONDecodeError` when the result still does not parse. -/
def repair_json (json_str : List Char) : Except Unit (List Char) :=
  let fixed0 := pyStrip json_str
  let fixed1 := match extract_json fixed0 with
    | some e => e
    | none => fixed0
  let fixed2 := replaceQuotes fixed1
  let fixed3 := removeTrailingCommas (fixed2.length + 1) fixed2
  let fixed4 := quoteBareKeys (fixed3.length + 1) fixed3
  let fixed5 :=
    if fixed4.head? = some lbrace && fixed4.getLast? = some rbrace then fixed4
    else wrapResponse fixed4
  match jsonLoads fixed5 with
  | some _ => .ok fixed5
  | none => .error ()

/-- The object `{"response": s, "error": e}`. -/
def responseErrorObj (s e : List Char) : Json :=
  Json.obj (fieldsOf [("response".toList, Json.str s), ("error".toList, Json.str e)])

/-- `JSONProcessor.parse` (src/pasture_core.py:306-323): strict parse, else
repair and parse, else `{"response": input, "error": "json_parsing_failed"}`;
blank input short-circuits to `{"response": "", "error": "empty_response"}`.
All exception paths are the error objects, so the function is total. -/
def JSONProcessor_parse (input_str : List Char) : Json :=
  if input_str.isEmpty || (pyStrip input_str).isEmpty then
    responseErrorObj [] "empty_response".toList
  else
    match jsonLoads input_str with
    | some v => v
    | none =>
      match repair_json input_str with
      | .ok fixed =>
        match jsonLoads fixed with
        | some v => v
        | none => responseErrorObj input_str "json_parsing_failed".toList
      | .error _ => responseErrorObj input_str "json_parsing_failed".toList

/-- `JSONProcessor.wrap_text_as_json` (src/pasture_core.py:325-331). -/
def wrap_text_as_json (text : List Char) : Json :=
  if text.isEmpty then responseErrorObj [] "empty_response".toList
  else Json.obj (fieldsOf [("response".toList, Json.str (pyStrip text))])

/-! Association-list helpers with Python dict semantics (string keys). -/

/-- Lookup (`d.get(k)` / `d[k]`). -/
def alookup {α : Type} (k : String) : List (String × α) → Option α
  | [] => none
  | (k', v) :: rest => if k' = k then some v else alookup k rest

/-- Assignment `d[k] = v`: overwrite in place, else append. -/
def aupdate {α : Type} (k : String) (v : α) : List (String × α) → List (String × α)
  | [] => [(k, v)]
  | (k', v') :: rest => if k' = k then (k, v) :: rest else (k', v') :: aupdate k v rest

/-!  The Model Manager's health state (src/pasture_core.py:420-637). -/

/-- The configuration fields these claims exercise (the full `Config` carries
further fields — cache directory, retry policy, patching policy, timeouts —
that the embedded functions do not read). -/
structure Config where
  simulation_mode : Bool := false
  fallback_threshold : Nat := 2
  min_response_length : Nat := 10
deriving DecidableEq

/-- `ModelStatus` (src/pasture_core.py:420-427).  Times are abstract ticks. -/
structure ModelStatus where
  name : String
  loaded : Bool := false
  healthy : Bool := true
  failure_count : Nat := 0
  last_checked : Option Nat := none
  last_used : Option Nat := none
deriving DecidableEq

/-- The `model_statuses` table. -/
abbrev Statuses := List (String × ModelStatus)

/-- `ModelManager._get_model_status` (src/pasture_core.py:502-506): fetch the
status entry, creating a default one if the model is unknown. -/
def get_model_status (st : Statuses) (m : String) : ModelStatus × Statuses :=
  match alookup m st with
  | some s => (s, st)
  | none =>
    let d : ModelStatus := { name := m }
    (d, aupdate m d st)

/-- `ModelManager._increment_failure_count` (src/pasture_core.py:508-516):
bump the failure count and mark the model unhealthy once the count reaches
`fallback_threshold`. -/
def increment_failure_count (cfg : Config) (st : Statuses) (m : String) : Statuses :=
  let (s, st1) := get_model_status st m
  let s2 := { s with failure_count := s.failure_count + 1 }
  let s3 := if cfg.fallback_threshold ≤ s2.failure_count then { s2 with healthy := false } else s2
  aupdate m s3 st1

/-- `ModelManager.check_model_health` (src/pasture_core.py:553-589).
`probe_error` is the oracle outcome of the `"Hello"` generate request (`true`
when the returned object carries an `"error"` key); `now` is the clock reading
stored into `last_checked`.  The probe is only issued in the branch where the
model is still marked healthy — an already-unhealthy model returns `false`
before any request is made. -/
def check_model_health (cfg : Config) (st : Statuses) (m : String)
    (probe_error : Bool) (now : Nat) : Bool × Statuses :=
  if cfg.simulation_mode then (true, st)
  else
    let (status, st1) := get_model_status st m
    if status.healthy = false then (false, st1)
    else
      let status2 := { status with last_checked := some now }
      let st2 := aupdate m status2 st1
      if probe_error then (false, increment_failure_count cfg st2 m)
      else if 0 < status2.failure_count then
        (true, aupdate m { status2 with failure_count := 0, healthy := true } st2)
      else (true, st2)

/-- `ModelManager._create_cache_key` (src/pasture_core.py:633-637):
`f"{model_name}:{prompt}:{json.dumps(options or {})}"`.  `options or {}`
collapses `None` to the empty dict, so the argument is the fields directly;
note `json.dumps` is called WITHOUT `sort_keys`, so the field order is dict
insertion order. -/
def create_cache_key (model_name prompt : List Char) (options : JsonFields) : List Char :=
  model_name ++ ':' :: prompt ++ ':' :: jsonDumps (Json.obj options)

/-- Two option dicts are equal as maps: every key looks up the same value. -/
def sameMap (a b : JsonFields) : Prop :=
  ∀ k, pyLookup k a = pyLookup k b

/-!  Steps (src/pasture_core.py:943-1405). -/

/-- A step result dictionary (the uniform shape returned by
`ModelStep.execute` / `get_fallback`); fields that a given return site omits
keep their defaults (`fallback` absent is modelled as `false`). -/
structure StepResult where
  output : Json
  time : Nat := 0
  model : String := "unknown"
  status : String := "error"
  prompt : Option (List Char) := none
  fallback : Bool := false
  error_details : Option (List Char) := none
deriving DecidableEq

/-- Whether a generate-result dict carries an `"error"` key. -/
def hasErrorKey (fields : JsonFields) : Bool :=
  pyHasKey "error".toList fields

/-- The `all_models_failed` output object. -/
def allModelsFailedOutput : Json :=
  Json.obj (fieldsOf
    [("response".toList, Json.str "All models failed to generate a response".toList),
     ("error".toList, Json.str "all_models_failed".toList)])

/-- `ModelStep.get_fallback` (src/pasture_core.py:1134-1176): walk the
configured `fallback_models`; for each candidate check health (threading the
status table) and, when healthy, call the model; the first candidate whose
result has no `"error"` key yields a success result with `fallback = True`
and `model` set to the candidate.  When every candidate fails, the error
result carries `model = self.model_name` and `fallback = True`.
`gen` abstracts `ModelManager.generate_with_model` (the returned dict for a
given candidate); `probe_error` abstracts the health-probe outcome;
`fmt_prompt` is the prompt produced by `_format_prompt(data)` (identical on
every iteration since `data` does not change). -/
def get_fallback (cfg : Config) (st : Statuses) (model_name : String)
    (fallback_models : List String) (fmt_prompt : List Char)
    (gen : String → JsonFields) (probe_error : String → Bool) (now : Nat) :
    StepResult × Statuses :=
  match fallback_models with
  | [] =>
    ({ output := allModelsFailedOutput, time := 0, model := model_name,
       status := "error", fallback := true }, st)
  | fm :: rest =>
    let chk := check_model_health cfg st fm (probe_error fm) now
    if chk.1 = false then
      get_fallback cfg chk.2 model_name rest fmt_prompt gen probe_error now
    else
      let result := gen fm
      if hasErrorKey result = false then
        ({ output := Json.obj result, time := 0, model := fm, status := "success",
           prompt := some fmt_prompt, fallback := true }, chk.2)
      else
        get_fallback cfg chk.2 model_name rest fmt_prompt gen probe_error now

/-!  The chat request payload and the schema post-processing of
`ModelStep.execute` and `ChatModelStep.execute` (src/pasture_core.py:
1029-1071 and 1239-1304). -/

/-- The request body built by `ModelManager.generate_with_chat`
(src/pasture_core.py:822-835): `{"model", "messages", "stream": false}`,
plus `"options"` when the options dict is truthy and `"format"` when the
format dict is truthy (`if options:` / `if format:` — `None` and the empty
dict are both falsy). -/
def chat_payload (model_name : String) (messages : JsonList)
    (options : Option JsonFields) (format : Option JsonFields) : JsonFields :=
  let p0 := fieldsOf
    [("model".toList, Json.str model_name.toList),
     ("messages".toList, Json.arr messages),
     ("stream".toList, Json.bool false)]
  let p1 := match options with
    | some o => if o.isNil then p0 else pyInsert "options".toList (Json.obj o) p0
    | none => p0
  match format with
  | some f => if f.isNil then p1 else pyInsert "format".toList (Json.obj f) p1
  | none => p1

/-- Whether the response text "looks like JSON" in the steps' check:
`response.strip().startswith("{") and response.strip().endswith("}")`. -/
def looksLikeJsonObj (s : List Char) : Bool :=
  (pyStrip s).head? = some lbrace && (pyStrip s).getLast? = some rbrace

/-- The schema post-processing block of `ModelStep.execute`
(src/pasture_core.py:1029-1071), as a function of the generate-result dict.
`validate` abstracts `JSONProcessor.validate_with_schema` against the step's
`output_schema` (`some validated` on success, `none` on a `ValidationError`);
`patched` abstracts the outcome of the `_patch_json_output` loop.  On
successful validation the WHOLE result is replaced by the validated object;
when validation or parsing fails the patch loop runs (if `use_patching`), and
`fallback_to_text` wraps the raw text.  The `none` return models the one
branch where a Python exception escapes (a non-string `response` fed to
`wrap_text_as_json`). -/
def completion_postprocess (result : JsonFields) (has_schema : Bool)
    (use_patching fallback_to_text : Bool) (validate : Json → Option Json)
    (patched : Option Json) : Option Json :=
  if has_schema = false then some (Json.obj result)
  else
    let response_obj := (pyLookup "response".toList result).getD (Json.str [])
    match response_obj with
    | .str s =>
      if looksLikeJsonObj s then
        match jsonLoads s with
        | some parsed_json =>
          match validate parsed_json with
          | some validated => some validated
          | none =>
            if use_patching then
              match patched with
              | some p => some p
              | none =>
                if fallback_to_text then some (wrap_text_as_json s)
                else some (Json.obj result)
            else if fallback_to_text then some (wrap_text_as_json s)
            else some (Json.obj result)
        | none =>
          if use_patching then
            match patched with
            | some p => some p
            | none =>
              if fallback_to_text then some (wrap_text_as_json s)
              else some (Json.obj result)
          else if fallback_to_text then some (wrap_text_as_json s)
          else some (Json.obj result)
      else if fallback_to_text then some (wrap_text_as_json s)
      else some (Json.obj result)
    | _ =>
      if fallback_to_text then none
      else some (Json.obj result)

/-- The schema post-processing block of `ChatModelStep.execute`
(src/pasture_core.py:1271-1294): when the response parses and validates, the
validated object is stored under the extra key `"parsed_output"` — the result
dict itself is kept; when validation or parsing fails, the patch loop's
product (if any) is stored under `"parsed_output"`; there is no
fallback-to-text branch of any kind. -/
def chat_postprocess (result : JsonFields) (has_schema : Bool)
    (use_patching : Bool) (validate : Json → Option Json)
    (patched : Option Json) : JsonFields :=
  if has_schema = false then result
  else
    match pyLookup "response".toList result with
    | none => result
    | some response_val =>
      match response_val with
      | .str s =>
        if looksLikeJsonObj s then
          match jsonLoads s with
          | some parsed_json =>
            match validate parsed_json with
            | some validated => pyInsert "parsed_output".toList validated result
            | none =>
              if use_patching then
                match patched with
                | some p => pyInsert "parsed_output".toList p result
                | none => result
              else result
          | none =>
            if use_patching then
              match patched with
              | some p => pyInsert "parsed_output".toList p result
              | none => result
            else result
        else result
      | _ => result

/-- What the specification says the chat step's post-processing does
("schema-validation and patching mirror CompletionStep"): the same
transformation as `completion_postprocess`.  Modelled from the spec for the
refinement comparison of the chat step against the completion step. -/
def chat_postprocess_spec (result : JsonFields) (has_schema : Bool)
    (use_patching fallback_to_text : Bool) (validate : Json → Option Json)
    (patched : Option Json) : Option Json :=
  completion_postprocess result has_schema use_patching fallback_to_text validate patched

/-!  The Pipeline (src/pasture_core.py:1407-1584). -/

/-- A pipeline step as `Pipeline` consumes it: its name, its declared
dependencies, and its `execute` behaviour as a function of the data map it is
given.  `exec` returning `none` models `asyncio.wait_for` raising
`TimeoutError` (the step exceeding the 300-second timeout);
`model_name` is what `getattr(step, "model_name", "unknown")` reads. -/
structure PStep where
  name : String
  deps : List String
  exec : JsonFields → Option StepResult
  model_name : Option String := none

/-- `graph = {name: deps for name, _, deps in self.steps}` — also the
`remaining_steps` dict of `Pipeline.run` (Python dict comprehension:
insertion order, later duplicates overwrite in place). -/
def buildGraph : List (String × List String) → List (String × List String) :=
  fun l => l.foldl (fun g p => aupdate p.1 p.2 g) []

/-- The outcome of the cycle-detecting DFS of `Pipeline._validate_steps`:
either the final visited set, or the raised `ValueError` carrying the cycle
(`path[path.index(node):] + [node]`), or exhausted fuel (shown below to be
unreachable with the fuel `validate_steps` supplies). -/
inductive DfsRes where
  | ok (visited : List String) : DfsRes
  | cycleErr (cycle : List String) : DfsRes
  | outOfFuel : DfsRes
deriving DecidableEq

/-- The DFS of `Pipeline._validate_steps` (src/pasture_core.py:1441-1462),
processing a worklist of nodes at one recursion level: an undefined name is
skipped with a warning (only dependencies can be undefined; roots come from
the graph itself); a node already on the in-progress path raises the cycle
error; a visited node is skipped; otherwise the node is marked visited,
pushed on the path, and its dependencies are processed before its siblings.
The fuel is decremented once per call and `validate_steps` supplies enough
for the whole traversal. -/
def dfsList (graph : List (String × List String)) :
    Nat → List String → List String → List String → DfsRes
  | _, [], visited, _ => .ok visited
  | 0, _ :: _, _, _ => .outOfFuel
  | fuel + 1, n :: rest, visited, path =>
    if (alookup n graph).isSome = false then dfsList graph fuel rest visited path
    else if n ∈ path then .cycleErr (path.drop (path.indexOf n) ++ [n])
    else if n ∈ visited then dfsList graph fuel rest visited path
    else
      match dfsList graph fuel ((alookup n graph).getD []) (visited ++ [n]) (path ++ [n]) with
      | .ok v2 => dfsList graph fuel rest v2 path
      | e => e

/-- Fuel that suffices for the whole DFS: one unit per worklist entry plus,
for every graph node, one unit for the node and one per dependency. -/
def dfsFuel (graph : List (String × List String)) : Nat :=
  ((graph.map (fun p => 1 + p.2.length)).sum) + graph.length + 1

/-- `Pipeline._validate_steps` (src/pasture_core.py:1430-1462): build the
dependency graph and run the cycle-detecting DFS from every node. -/
def validate_steps (steps : List (String × List String)) : DfsRes :=
  let graph := buildGraph steps
  dfsList graph (dfsFuel graph) (graph.map Prod.fst) [] []

/-- `Pipeline.__init__` (src/pasture_core.py:1409-1428): validation runs at
construction; a detected cycle raises before any step can execute (there is
no pipeline object to run). -/
def Pipeline_init (steps : List PStep) : Except (List String) (List PStep) :=
  match validate_steps (steps.map (fun s => (s.name, s.deps))) with
  | .ok _ => .ok steps
  | .cycleErr cyc => .error cyc
  | .outOfFuel => .error []

/-- The dependency edges `_validate_steps` can follow: from a node to each of
its declared dependencies that is itself a defined step name. -/
def hasEdge (graph : List (String × List String)) (a b : String) : Prop :=
  ∃ deps, alookup a graph = some deps ∧ b ∈ deps ∧ (alookup b graph).isSome

/-- A dependency cycle among defined step names. -/
def hasCycle (graph : List (String × List String)) : Prop :=
  ∃ n, Relation.TransGen (hasEdge graph) n n

/-- The cycle list the `ValueError` message carries is a genuine cycle: at
least two entries, first equal to last, consecutive entries joined by
dependency edges. -/
def realCycle (graph : List (String × List String)) (cyc : List String) : Prop :=
  2 ≤ cyc.length ∧ cyc.head? = cyc.getLast? ∧ List.Chain' (hasEdge graph) cyc

/-- How much of the DFS's total work is still ahead: one unit per unvisited
graph node plus one per dependency of such a node.  Together with the length
of the current worklist this bounds the recursion depth, which is what
`dfsFuel` must dominate. -/
def dfsMeasure (graph : List (String × List String)) (visited : List String) : Nat :=
  ((graph.filter (fun p => decide (p.1 ∉ visited))).map (fun p => 1 + p.2.length)).sum

/-- The classical DFS colouring invariant, stated for `dfsList`'s state.
`visited` holds grey (on `path`) and black (finished) nodes; the three
conjuncts say that a black node's edges lead to black nodes, that no black
node reaches a grey node, and that no black node lies on a cycle. -/
def DfsInv (graph : List (String × List String))
    (visited path : List String) : Prop :=
  (∀ x ∈ visited, x ∉ path → ∀ y, hasEdge graph x y → y ∈ visited ∧ y ∉ path) ∧
  (∀ x ∈ visited, x ∉ path → ∀ z ∈ path,
    ¬ Relation.ReflTransGen (hasEdge graph) x z) ∧
  (∀ x ∈ visited, x ∉ path → ¬ Relation.TransGen (hasEdge graph) x x)

/-- The planning loop of `Pipeline.run` (src/pasture_core.py:1471-1499):
repeatedly move the steps whose dependencies are all in `done` from
`remaining` to the plan; stop when nothing is ready.  `Pipeline.run` passes
the key set of its `results` dict for `done` — which is EMPTY at planning
time, since planning happens before any execution. -/
def planLoop (fuel : Nat) (remaining : List (String × List String))
    (done : List String) : List String :=
  match fuel with
  | 0 => []
  | fuel' + 1 =>
    match remaining with
    | [] => []
    | _ =>
      let ready := remaining.filter (fun p => p.2.all (fun d => d ∈ done))
      if ready.isEmpty then []
      else
        (ready.map Prod.fst) ++
          planLoop fuel' (remaining.filter (fun p => p.1 ∉ ready.map Prod.fst)) done

/-- The coercion `Pipeline.run` applies to a previous step's output before
binding it into the data map (src/pasture_core.py:1533-1535): a non-dict
output becomes `{"response": str(output)}`. -/
def coerceOutput (j : Json) : Json :=
  if isObjectJ j then j
  else Json.obj (fieldsOf [("response".toList, Json.str (pyStr j))])

/-- `robust_data` (src/pasture_core.py:1528-1536): a fresh copy of the
pipeline input, updated with every previously recorded step result's output
(coerced), in recording order — note it is built from `results`, i.e. from
the ACTUAL outputs of previous steps, including failed ones. -/
def robustData (input : JsonFields) (results : List (String × StepResult)) : JsonFields :=
  results.foldl (fun d p => pyInsert p.1.toList (coerceOutput p.2.output) d) input

/-- The placeholder stored into the `data` map for a failed step
(src/pasture_core.py:1559): `{"response": f"Step {name} failed", "error":
"step_failed"}`. -/
def stepFailedPlaceholder (name : String) : Json :=
  Json.obj (fieldsOf
    [("response".toList, Json.str (("Step " ++ name ++ " failed").toList)),
     ("error".toList, Json.str "step_failed".toList)])

/-- The step result `Pipeline.run` fabricates on a timeout
(src/pasture_core.py:1543-1550). -/
def timeoutResult (model_name : Option String) : StepResult :=
  { output := Json.obj (fieldsOf
      [("response".toList, Json.str "Execution timed out after 300s".toList),
       ("error".toList, Json.str "timeout".toList)]),
    time := 300, model := model_name.getD "unknown", status := "error" }

/-- The step result `Pipeline.run` fabricates when a planned step still has
unrecorded dependencies (src/pasture_core.py:1515-1523); the dependency list
renders with Python's list `repr`. -/
def missingDepsResult (model_name : Option String) (missing : List String) : StepResult :=
  { output := Json.obj (fieldsOf
      [("response".toList, Json.str ("Missing dependencies: ".toList ++
          pyStr (Json.arr (jlistOf (missing.map (fun m => Json.str m.toList)))))),
       ("error".toList, Json.str "missing_dependencies".toList)]),
    time := 0, model := model_name.getD "unknown", status := "error" }

/-- The outcome of `Pipeline.run`: the `results` dict, the final `data` map
(the one that accumulates placeholders and is, in fact, never read), the data
map actually passed to each `step.execute` call (in execution order, recorded
for the specification statements), and the success/total counters. -/
structure RunResult where
  results : List (String × StepResult)
  data : JsonFields
  calls : List (String × JsonFields)
  success_count : Nat
  total_count : Nat

/-- The execution loop of `Pipeline.run` (src/pasture_core.py:1503-1569),
walking the computed plan: find the step, re-check its dependencies against
`results`, build `robust_data` from the input plus all recorded outputs, run
`execute` under the timeout, record the result, and update the `data` map
with the output on success or the `step_failed` placeholder on failure. -/
def execLoop (steps : List PStep) (input : JsonFields) :
    List String → List (String × StepResult) → JsonFields →
    List (String × StepResult) × JsonFields × List (String × JsonFields)
  | [], results, data => (results, data, [])
  | name :: plan', results, data =>
    match steps.find? (fun s => s.name = name) with
    | none => execLoop steps input plan' results data
    | some step =>
      let missing := step.deps.filter (fun d => (alookup d results).isNone)
      if missing.isEmpty = false then
        execLoop steps input plan'
          (aupdate name (missingDepsResult step.model_name missing) results) data
      else
        let robust := robustData input results
        let result := match step.exec robust with
          | some r => r
          | none => timeoutResult step.model_name
        let results' := aupdate name result results
        let data' :=
          if result.status = "success" then pyInsert name.toList result.output data
          else pyInsert name.toList (stepFailedPlaceholder name) data
        let o := execLoop steps input plan' results' data'
        (o.1, o.2.1, (name, robust) :: o.2.2)

/-- `Pipeline.run` (src/pasture_core.py:1464-1584).  Wall-clock totals are
not modelled.  The planning loop consults the `results` dict, which is empty
before execution, so only dependency-free steps are ever planned. -/
def Pipeline_run (steps : List PStep) (input : JsonFields) : RunResult :=
  let results0 : List (String × StepResult) := []
  let remaining := buildGraph (steps.map (fun s => (s.name, s.deps)))
  let plan := planLoop (remaining.length + 1) remaining (results0.map Prod.fst)
  let o := execLoop steps input plan results0 input
  { results := o.1, data := o.2.1, calls := o.2.2,
    success_count := (o.1.filter (fun p => p.2.status = "success")).length,
    total_count := o.1.length }

/-!  Concurrency model for the lock discipline (claim C9).  An asyncio task is
a list of pending actions; the scheduler may run any task's next action when
its guard holds, switching tasks at await points.  `send` starts an HTTP
request to `/api/generate` or `/api/chat` and `recv` completes it (both are
await points of `aiohttp`); `acquire`/`release` are the `model_lock`. -/

/-- One awaitable action of a task. -/
inductive Act where
  | acquire : Act
  | release : Act
  | send : Act
  | recv : Act
deriving DecidableEq

/-- A scheduler state: the remaining program of every task, the lock holder,
and the number of HTTP requests currently in flight. -/
structure CState where
  tasks : List (List Act)
  lock : Option Nat
  inflight : Nat
deriving DecidableEq

/-- Interleaving semantics: any task whose next action is enabled may step.
`acquire` needs the lock free; `release` needs the stepping task to hold it;
`send`/`recv` are always enabled (awaiting an HTTP response suspends the task
and lets any other task run, which is how asyncio's event loop behaves). -/
inductive CStep : CState → CState → Prop where
  | acquire {s : CState} {i : Nat} {rest : List Act}
      (h : s.tasks.get? i = some (Act.acquire :: rest)) (hl : s.lock = none) :
      CStep s ⟨s.tasks.set i rest, some i, s.inflight⟩
  | release {s : CState} {i : Nat} {rest : List Act}
      (h : s.tasks.get? i = some (Act.release :: rest)) (hl : s.lock = some i) :
      CStep s ⟨s.tasks.set i rest, none, s.inflight⟩
  | send {s : CState} {i : Nat} {rest : List Act}
      (h : s.tasks.get? i = some (Act.send :: rest)) :
      CStep s ⟨s.tasks.set i rest, s.lock, s.inflight + 1⟩
  | recv {s : CState} {i : Nat} {rest : List Act}
      (h : s.tasks.get? i = some (Act.recv :: rest)) :
      CStep s ⟨s.tasks.set i rest, s.lock, s.inflight - 1⟩

/-- Reachability under the interleaving semantics. -/
def CReach : CState → CState → Prop := Relation.ReflTransGen CStep

/-- The program of one `check_model_health` probe (src/pasture.py:786-822):
the `"Hello"` generate request is issued WITHOUT touching `model_lock` — the
function never acquires it. -/
def health_check_task : List Act := [Act.send, Act.recv]

/-- The program of one `generate_with_model` backend call
(src/pasture_core.py:639-772): the request runs inside
`async with self.model_lock`. -/
def locked_generate_task : List Act := [Act.acquire, Act.send, Act.recv, Act.release]

/-- The initial state of `n` concurrently scheduled copies of a program —
`get_fallback_model` (src/pasture.py:1156-1158) launches one
`check_model_health` task per candidate and runs them with `asyncio.gather`. -/
def initTasks (n : Nat) (prog : List Act) : CState :=
  ⟨List.replicate n prog, none, 0⟩

/-- The suffixes of the locked-generate program a task can be at. -/
def lockedSuffix (p : List Act) : Prop :=
  p = locked_generate_task ∨ p = [Act.send, Act.recv, Act.release] ∨
    p = [Act.recv, Act.release] ∨ p = [Act.release] ∨ p = []

/-- The mutual-exclusion invariant for locked-generate tasks: every task is
at a suffix of the program; every task that has started and not finished
holds the lock; the in-flight count is at most one and tracks exactly the
tasks that have sent and not yet received. -/
def LockInv (s : CState) : Prop :=
  (∀ i p, s.tasks.get? i = some p → lockedSuffix p) ∧
  (∀ i p, s.tasks.get? i = some p → p ≠ locked_generate_task → p ≠ [] →
    s.lock = some i) ∧
  s.inflight ≤ 1 ∧
  (s.inflight = 1 → ∃ i, s.tasks.get? i = some [Act.recv, Act.release]) ∧
  (∀ i, s.tasks.get? i = some [Act.recv, Act.release] → s.inflight = 1)

/-!  Concrete instances used by the claim theorems. -/

/-- Options dict `{"a": 1, "b": 2}` in that insertion order. -/
def optsAB : JsonFields :=
  fieldsOf [("a".toList, Json.num ['1']), ("b".toList, Json.num ['2'])]

/-- The same map with the opposite insertion order: `{"b": 2, "a": 1}`. -/
def optsBA : JsonFields :=
  fieldsOf [("b".toList, Json.num ['2']), ("a".toList, Json.num ['1'])]

/-- A configuration with `fallback_threshold = 1` outside simulation mode. -/
def cfgReal1 : Config := { simulation_mode := false, fallback_threshold := 1 }

/-- The status table after one generate error on model `"m"` (what
`generate_with_model` records before returning its error object). -/
def stAfterOneFailure : Statuses := increment_failure_count cfgReal1 [] "m"

/-- The result of `get_fallback` for a step with `model_name = "m"` and
`fallback_models = ["f"]` when the candidate's health probe errors (so every
fallback fails). -/
def fallbackAllFailedEx : StepResult :=
  (get_fallback cfgReal1 [] "m" ["f"] [] (fun _ => .nil) (fun _ => true) 0).1

/-- The result of `get_fallback` in the same configuration when the candidate
is healthy and generation succeeds. -/
def fallbackSuccessEx : StepResult :=
  (get_fallback cfgReal1 [] "m" ["f"] []
    (fun _ => fieldsOf [("response".toList, Json.str "hello there".toList)])
    (fun _ => false) 0).1

/-- The response text `{"x": 3}`. -/
def jsonX3Text : List Char := [lbrace, qc, 'x', qc, ':', ' ', '3', rbrace]

/-- The parsed object `{"x": 3}`. -/
def jsonX3Val : Json := Json.obj (fieldsOf [(['x'], Json.num ['3'])])

/-- A generate-result dict whose response text is the JSON `{"x": 3}`. -/
def chatResultEx : JsonFields := fieldsOf [("response".toList, Json.str jsonX3Text)]

/-- A schema-validation oracle that accepts every object unchanged. -/
def validateAccept : Json → Option Json := fun j => some j

/-- The valid JSON text `{"a": "it's"}` — its string value contains a single
quote, which `repair_json` rewrites into a double quote. -/
def validJsonWithApos : List Char :=
  [lbrace, qc, 'a', qc, ':', ' ', qc, 'i', 't', apos, 's', qc, rbrace]

/-- The actual error output of the failing step `A` below. -/
def aErrOutput : Json :=
  Json.obj (fieldsOf
    [("response".toList, Json.str "boom".toList),
     ("error".toList, Json.str "HTTP 500".toList)])

/-- Half of a two-step circular pipeline. -/
def stepCycA : PStep where
  name := "a"
  deps := ["b"]
  exec := fun _ => none

/-- The other half of the two-step circular pipeline. -/
def stepCycB : PStep where
  name := "b"
  deps := ["a"]
  exec := fun _ => none

/-- A dependency-free step, for the acyclic construction case. -/
def stepFreeA : PStep where
  name := "a"
  deps := []
  exec := fun _ => none

/-- A second dependency-free step. -/
def stepFreeB : PStep where
  name := "b"
  deps := []
  exec := fun _ => none

/-- A dependency-free step whose execution fails (an HTTP 500 surfaced as an
error-status result). -/
def stepAFail : PStep where
  name := "A"
  deps := []
  exec := fun _ => some { output := aErrOutput, model := "mA", status := "error" }
  model_name := some "mA"

/-- A dependency-free step that succeeds. -/
def stepBOk : PStep where
  name := "B"
  deps := []
  exec := fun _ => some
    { output := Json.obj (fieldsOf [("response".toList, Json.str "okB".toList)]),
      model := "mB", status := "success" }
  model_name := some "mB"

/-- A step that declares a dependency on `A`. -/
def stepCDep : PStep where
  name := "C"
  deps := ["A"]
  exec := fun _ => some
    { output := Json.obj (fieldsOf [("response".toList, Json.str "okC".toList)]),
      model := "mC", status := "success" }
  model_name := some "mC"

/-- The pipeline run of `[A (fails), B, C (depends on A)]`. -/
def runPlaceholderEx : RunResult :=
  Pipeline_run [stepAFail, stepBOk, stepCDep]
    (fieldsOf [("query".toList, Json.str ['q'])])

/-!  ######################  THEOREMS  ###################### -/

/-- C3 — the cache key is NOT insertion-order independent: `{"a": 1, "b": 2}`
and `{"b": 2, "a": 1}` are equal as maps, yet `_create_cache_key` serializes
them with `json.dumps` without `sort_keys`, producing different key strings
(hence different MD5 filenames).  This evaluates the code at the failing
input of the claim. -/
theorem create_cache_key_order_sensitive :
    sameMap optsAB optsBA ∧
    create_cache_key "llama3".toList "P".toList optsAB ≠
      create_cache_key "llama3".toList "P".toList optsBA := by
  constructor
  · intro k
    by_cases h1 : (['a'] : List Char) = k
    · have h2 : ¬ (['b'] : List Char) = k := fun h => by
        rw [← h1] at h
        exact absurd h (by decide)
      simp [optsAB, optsBA, fieldsOf, pyLookup, h1, h2]
    · by_cases h2 : (['b'] : List Char) = k
      · simp [optsAB, optsBA, fieldsOf, pyLookup, h1, h2]
      · simp [optsAB, optsBA, fieldsOf, pyLookup, h1, h2]
  · decide

/-- C1 (counterexample) — the claim asserts a successful health check can
reset an UNHEALTHY model.  It cannot: after one failure with
`fallback_threshold = 1`, model `"m"` is unhealthy with `failure_count = 1`,
and `check_model_health` with a SUCCESSFUL probe outcome still returns
`false` and leaves the status table entirely unchanged — the probe branch is
never reached, so no reset is possible. -/
theorem check_model_health_no_reset_when_unhealthy :
    (alookup "m" stAfterOneFailure).map (fun s => s.healthy) = some false ∧
    (alookup "m" stAfterOneFailure).map (fun s => s.failure_count) = some 1 ∧
    check_model_health cfgReal1 stAfterOneFailure "m" false 7 =
      (false, stAfterOneFailure) := by
  refine ⟨by decide, by decide, by decide⟩

/-- C1 (amended) — once a model is marked unhealthy, `check_model_health`
returns `false` on every subsequent call and never issues the probe nor
mutates the status table: unhealthiness is permanent through this function
(outside simulation mode).  The reset to `failure_count = 0`, `healthy =
true` exists only in the branch where the model is still marked healthy. -/
theorem check_model_health_unhealthy_forever (cfg : Config) (st : Statuses)
    (m : String) (probe : Bool) (now : Nat) (s : ModelStatus)
    (hsim : cfg.simulation_mode = false) (hfind : alookup m st = some s)
    (hunh : s.healthy = false) :
    check_model_health cfg st m probe now = (false, st) := by
  simp [check_model_health, get_model_status, hsim, hfind, hunh]

/-- Witness for `check_model_health_unhealthy_forever` at the concrete
unhealthy state. -/
theorem check_model_health_unhealthy_forever_witness :
    check_model_health cfgReal1 stAfterOneFailure "m" false 7 =
      (false, stAfterOneFailure) :=
  check_model_health_unhealthy_forever cfgReal1 stAfterOneFailure "m" false 7
    { name := "m", loaded := false, healthy := false, failure_count := 1 }
    (by decide) (by decide) (by decide)

/-- C6 (counterexample) — the claim asserts `fallback = true` implies
`model ≠ step.model_name`.  The all-fallbacks-failed result refutes it: with
`model_name = "m"` and the single candidate `"f"` failing its health probe,
`get_fallback` returns a result with `fallback = true` and `model = "m"`,
the step's own configured model. -/
theorem get_fallback_error_keeps_primary_model :
    fallbackAllFailedEx.fallback = true ∧ fallbackAllFailedEx.model = "m" ∧
    fallbackAllFailedEx.status = "error" := by
  refine ⟨by decide, by decide, by decide⟩

/-- C6 (amended) — restricted to SUCCESSFUL results, the invariant holds: a
successful `get_fallback` result has `fallback = true` and its `model` is one
of the step's `fallback_models`; in particular it differs from the step's
configured `model_name` whenever the configured model is not itself listed
among the fallbacks.  The all-models-failed error result instead carries
`fallback = true` with `model = model_name`. -/
theorem get_fallback_success_model_is_candidate (cfg : Config) (st : Statuses)
    (mn : String) (cands : List String) (fmt : List Char)
    (gen : String → JsonFields) (probe : String → Bool) (now : Nat)
    (hs : (get_fallback cfg st mn cands fmt gen probe now).1.status = "success") :
    (get_fallback cfg st mn cands fmt gen probe now).1.fallback = true ∧
    (get_fallback cfg st mn cands fmt gen probe now).1.model ∈ cands ∧
    (mn ∉ cands → (get_fallback cfg st mn cands fmt gen probe now).1.model ≠ mn) := by
  induction cands generalizing st with
  | nil => simp [get_fallback] at hs
  | cons fm rest ih =>
    simp only [get_fallback] at hs ⊢
    rcases hc : check_model_health cfg st fm (probe fm) now with ⟨healthyB, st1⟩
    simp only [hc] at hs ⊢
    cases healthyB with
    | false =>
      simp only [if_pos rfl] at hs ⊢
      obtain ⟨h1, h2, h3⟩ := ih st1 hs
      exact ⟨h1, List.mem_cons_of_mem _ h2, fun hmn heq =>
        h3 (fun hr => hmn (List.mem_cons_of_mem _ hr)) heq⟩
    | true =>
      simp only [if_neg (by decide : ¬ (true = false))] at hs ⊢
      cases he : hasErrorKey (gen fm) with
      | false =>
        simp only [he, if_pos rfl] at hs ⊢
        refine ⟨rfl, List.mem_cons_self _ _, fun hmn heq => ?_⟩
        exact hmn (heq ▸ List.mem_cons_self fm rest)
      | true =>
        simp only [he, if_neg (by decide : ¬ (true = false))] at hs ⊢
        obtain ⟨h1, h2, h3⟩ := ih st1 hs
        exact ⟨h1, List.mem_cons_of_mem _ h2, fun hmn heq =>
          h3 (fun hr => hmn (List.mem_cons_of_mem _ hr)) heq⟩

/-- Witness for `get_fallback_success_model_is_candidate` at a concrete
successful fallback. -/
theorem get_fallback_success_model_is_candidate_witness :
    fallbackSuccessEx.fallback = true ∧ fallbackSuccessEx.model ∈ ["f"] ∧
    ("m" ∉ ["f"] → fallbackSuccessEx.model ≠ "m") :=
  get_fallback_success_model_is_candidate cfgReal1 [] "m" ["f"] []
    (fun _ => fieldsOf [("response".toList, Json.str "hello there".toList)])
    (fun _ => false) 0 (by decide)

/-- Looking a key up right after inserting it yields the inserted value. -/
theorem pyLookup_pyInsert_self (k : List Char) (v : Json) (l : JsonFields) :
    pyLookup k (pyInsert k v l) = some v := by
  match l with
  | .nil => simp [pyInsert, pyLookup]
  | .cons k' v' rest =>
    by_cases h : k' = k
    · simp [pyInsert, pyLookup, h]
    · simp only [pyInsert, pyLookup, h, if_false, if_neg h]
      exact pyLookup_pyInsert_self k v rest

/-- C8 (counterexample) — the chat step's schema post-processing is NOT the
same result transformation as the completion step's: on a response that
parses and validates, the completion step REPLACES the result with the
validated object, while the chat step keeps the result dict and stores the
validated object under the extra key `"parsed_output"`.
`chat_postprocess_spec` is the transformation the specification describes
("mirror CompletionStep"); the code's `chat_postprocess` disagrees with it at
this input. -/
theorem chat_postprocess_not_completion_transformation :
    completion_postprocess chatResultEx true true true validateAccept none =
      some jsonX3Val ∧
    chat_postprocess chatResultEx true true validateAccept none =
      pyInsert "parsed_output".toList jsonX3Val chatResultEx ∧
    some (Json.obj (chat_postprocess chatResultEx true true validateAccept none)) ≠
      chat_postprocess_spec chatResultEx true true true validateAccept none := by
  refine ⟨by decide, by decide, by decide⟩

/-- C8 (amended) — what does hold: when `output_schema` is set, the schema's
JSON-schema document is passed as the `format` field of the chat request
payload; and the chat step's validation fires under the same conditions as
the completion step's (response looks like a JSON object, parses, validates)
but stores the validated object under `"parsed_output"` instead of replacing
the result, with no fallback-to-text branch. -/
theorem chat_format_field_and_parsed_output (mn : String) (msgs : JsonList)
    (opts : Option JsonFields) (schema result : JsonFields) (up : Bool)
    (validate : Json → Option Json) (patched : Option Json) (s : List Char)
    (parsed v : Json)
    (hnil : schema.isNil = false)
    (hresp : pyLookup "response".toList result = some (Json.str s))
    (hlooks : looksLikeJsonObj s = true)
    (hload : jsonLoads s = some parsed)
    (hval : validate parsed = some v) :
    pyLookup "format".toList (chat_payload mn msgs opts (some schema)) =
      some (Json.obj schema) ∧
    chat_postprocess result true up validate patched =
      pyInsert "parsed_output".toList v result := by
  constructor
  · simp only [chat_payload, hnil, Bool.false_eq_true, if_false]
    exact pyLookup_pyInsert_self _ _ _
  · unfold chat_postprocess
    rw [if_neg (by decide : ¬ (true = false)), hresp]
    simp only []
    rw [hlooks, if_pos rfl, hload]
    simp only []
    rw [hval]

/-- Witness for `chat_format_field_and_parsed_output` at the concrete
validated-response instance. -/
theorem chat_format_field_and_parsed_output_witness :
    pyLookup "format".toList
      (chat_payload "llama3" .nil none (some (fieldsOf [("type".toList, Json.str "object".toList)]))) =
      some (Json.obj (fieldsOf [("type".toList, Json.str "object".toList)])) ∧
    chat_postprocess chatResultEx true true validateAccept none =
      pyInsert "parsed_output".toList jsonX3Val chatResultEx :=
  chat_format_field_and_parsed_output "llama3" .nil none
    (fieldsOf [("type".toList, Json.str "object".toList)]) chatResultEx true
    validateAccept none jsonX3Text jsonX3Val jsonX3Val
    (by decide) (by decide) (by decide) (by decide) (by decide)

/-!  Parser shape lemmas used by the `JSONProcessor.parse` claims. -/

/-- The value parser fails on empty input, whatever the fuel. -/
theorem parseValue_nil (fuel : Nat) : parseValue fuel [] = none := by
  cases fuel <;> simp [parseValue]

/-- Skipping JSON whitespace on a Python-whitespace-only string leaves either
nothing or a head character that is Python whitespace but not JSON
whitespace. -/
theorem skipWs_all_pyws (t : List Char) (h : ∀ c ∈ t, isPyWs c = true) :
    skipWs t = [] ∨
      ∃ c r, skipWs t = c :: r ∧ isPyWs c = true ∧ isJsonWs c = false := by
  induction t with
  | nil => exact Or.inl rfl
  | cons c r ih =>
    rw [skipWs]
    by_cases hj : isJsonWs c = true
    · rw [if_pos hj]
      exact ih (fun x hx => h x (List.mem_cons_of_mem _ hx))
    · rw [if_neg hj]
      exact Or.inr ⟨c, r, rfl, h c (List.mem_cons_self _ _),
        Bool.not_eq_true _ ▸ Bool.of_not_eq_true hj⟩

/-- The value parser fails when the head character is Python whitespace that
is not JSON whitespace (vertical tab or form feed). -/
theorem parseValue_pyws_head (fuel : Nat) (c : Char) (r : List Char)
    (hp : isPyWs c = true) (hj : isJsonWs c = false) :
    parseValue fuel (c :: r) = none := by
  have hc : c = Char.ofNat 11 ∨ c = Char.ofNat 12 := by
    simp only [isPyWs, Bool.or_eq_true, decide_eq_true_eq] at hp
    simp only [isJsonWs, Bool.or_eq_true, decide_eq_true_eq, not_or] at hj
    rcases hp with ((((h | h) | h) | h) | h) | h <;> simp_all
  cases fuel with
  | zero => simp [parseValue]
  | succ f =>
    rcases hc with hc | hc <;> subst hc <;>
      simp [parseValue, parseNumber, parseIntPart, isDigitC, qc, lbrace, bslash]

/-- `json.loads` fails on whitespace-only input. -/
theorem jsonLoads_all_pyws (t : List Char) (h : ∀ c ∈ t, isPyWs c = true) :
    jsonLoads t = none := by
  rw [jsonLoads]
  rcases skipWs_all_pyws t h with hz | ⟨c, r, hcr, hp, hj⟩
  · rw [hz, parseValue_nil]
  · rw [hcr, parseValue_pyws_head _ c r hp hj]

/-- A string whose `strip()` is empty consists of Python whitespace only. -/
theorem pyStrip_nil_all_pyws (s : List Char) (h : pyStrip s = []) :
    ∀ c ∈ s, isPyWs c = true := by
  intro c hc
  rw [pyStrip, List.reverse_eq_nil_iff, List.dropWhile_eq_nil_iff] at h
  rcases List.takeWhile_append_dropWhile isPyWs s ▸ hc with h1
  rcases List.mem_append.mp h1 with h2 | h2
  · exact List.mem_takeWhile_imp h2
  · exact h c (List.mem_reverse.mpr h2)

/-- A successful value parse starting at an opening brace yields an object. -/
theorem parseValue_lbrace_obj (fuel : Nat) (r : List Char) (v : Json)
    (rest : List Char) (h : parseValue fuel (lbrace :: r) = some (v, rest)) :
    isObjectJ v = true := by
  cases fuel with
  | zero => simp [parseValue] at h
  | succ f =>
    rw [parseValue.eq_def] at h
    simp only [if_true] at h
    rcases hb : parseObjBody f (skipWs r) .nil with _ | ⟨fs, r2⟩ <;> rw [hb] at h
    · rw [Option.map_none'] at h
      exact Option.noConfusion h
    · rw [Option.map_some'] at h
      rcases h with ⟨rfl, rfl⟩
      rfl

/-- A successful `json.loads` of a string starting with `{` is an object. -/
theorem jsonLoads_lbrace_obj (f : List Char) (g : Json)
    (hhead : f.head? = some lbrace) (h : jsonLoads f = some g) :
    isObjectJ g = true := by
  rcases f with _ | ⟨c, r⟩
  · simp at hhead
  · have hc : c = lbrace := by simpa using hhead
    subst hc
    rw [jsonLoads] at h
    rw [show skipWs (lbrace :: r) = lbrace :: r from by
      rw [skipWs, if_neg (by decide)]] at h
    rcases hp : parseValue (2 * (lbrace :: r).length + 8) (lbrace :: r) with _ | ⟨v', rest⟩ <;>
      rw [hp] at h
    · simp at h
    · simp only [] at h
      split at h
      · rcases h with ⟨rfl⟩
        exact parseValue_lbrace_obj _ r g rest hp
      · simp at h

/-- A successful repair yields a string that parses (its own final
validation) to a JSON OBJECT: the wrap branch guarantees the text starts with
an opening brace. -/
theorem repair_ok_loads_obj (t f : List Char) (h : repair_json t = .ok f) :
    ∃ g, jsonLoads f = some g ∧ isObjectJ g = true := by
  simp only [repair_json] at h
  split at h
  · rename_i g hg
    rcases h with ⟨rfl⟩
    refine ⟨g, hg, ?_⟩
    refine jsonLoads_lbrace_obj _ g ?_ hg
    split at hg
    · rename_i hcond
      rw [Bool.and_eq_true] at hcond
      split
      · exact of_decide_eq_true hcond.1
      · rename_i hcond2
        exact absurd (by rw [Bool.and_eq_true]; exact hcond) hcond2
    · split
      · rename_i hcond2
        rw [Bool.and_eq_true] at hcond2
        exact of_decide_eq_true hcond2.1
      · rfl
  · simp at h

/-- C4 (counterexample) — `Repair` is NOT the identity on already-valid JSON:
the valid document `{"a": "it's"}` is destroyed by the single-quote
substitution (`fixed.replace("'", '"')`), and `repair_json` then raises (its
final validation fails), violating `IsValid(s) ⇒ IsValid(Repair(s))`. -/
theorem repair_json_breaks_valid_input :
    is_valid_json validJsonWithApos = true ∧
    (repair_json validJsonWithApos).isOk = false := by
  refine ⟨by decide, by decide⟩

/-- C4 (amended) — the identity-on-valid-input property holds one level up:
`Parse` never invokes `Repair` on valid input, returning exactly the strict
parse, so `Parse(s) ≡ Parse(s)` trivially on valid `s`; `Repair` itself does
not preserve validity (see the counterexample). -/
theorem parse_strict_on_valid_input (s : List Char) (v : Json)
    (h : jsonLoads s = some v) : JSONProcessor_parse s = v := by
  have hne : s.isEmpty = false := by
    cases s with
    | nil =>
      rw [jsonLoads] at h
      rw [show skipWs [] = [] from rfl, parseValue_nil] at h
      exact Option.noConfusion h
    | cons c r => rfl
  have hstrip : (pyStrip s).isEmpty = false := by
    cases hps : pyStrip s with
    | nil =>
      have hnone := jsonLoads_all_pyws s (pyStrip_nil_all_pyws s hps)
      rw [hnone] at h
      exact Option.noConfusion h
    | cons a b => rfl
  simp [JSONProcessor_parse, hne, hstrip, h]

/-- Witness for `parse_strict_on_valid_input` at the valid text `{"x": 3}`. -/
theorem parse_strict_on_valid_input_witness :
    JSONProcessor_parse jsonX3Text = jsonX3Val :=
  parse_strict_on_valid_input jsonX3Text jsonX3Val (by decide)

/-- C5 — `Parse` is total with the specified outputs: blank input yields
`{"response": "", "error": "empty_response"}`; input that neither parses nor
repairs yields `{"response": t, "error": "json_parsing_failed"}`; and every
output is either a JSON object or exactly the strict parse of the input (the
error objects and every repaired result are objects), so no exception ever
escapes. -/
theorem parse_never_raises (t : List Char) :
    ((t.isEmpty || (pyStrip t).isEmpty) = true →
       JSONProcessor_parse t = responseErrorObj [] "empty_response".toList) ∧
    ((t.isEmpty || (pyStrip t).isEmpty) = false → jsonLoads t = none →
       repair_json t = .error () →
       JSONProcessor_parse t = responseErrorObj t "json_parsing_failed".toList) ∧
    (isObjectJ (JSONProcessor_parse t) = true ∨
       jsonLoads t = some (JSONProcessor_parse t)) := by
  refine ⟨?_, ?_, ?_⟩
  · intro hb
    simp [JSONProcessor_parse, hb]
  · intro hb hl hr
    simp [JSONProcessor_parse, hb, hl, hr]
  · by_cases hb : (t.isEmpty || (pyStrip t).isEmpty) = true
    · left
      simp [JSONProcessor_parse, hb, responseErrorObj, isObjectJ, fieldsOf]
    · have hb' : (t.isEmpty || (pyStrip t).isEmpty) = false :=
        Bool.not_eq_true _ ▸ Bool.of_not_eq_true hb
      cases hl : jsonLoads t with
      | some v =>
        right
        simp [JSONProcessor_parse, hb', hl]
      | none =>
        left
        cases hr : repair_json t with
        | error e =>
          simp [JSONProcessor_parse, hb', hl, hr, responseErrorObj, isObjectJ, fieldsOf]
        | ok fchars =>
          obtain ⟨g, hg, hobj⟩ := repair_ok_loads_obj t fchars hr
          simpa [JSONProcessor_parse, hb', hl, hr, hg] using hobj

/-- Witness for `parse_never_raises` at the blank input. -/
theorem parse_never_raises_witness :
    JSONProcessor_parse [] = responseErrorObj [] "empty_response".toList :=
  (parse_never_raises []).1 (by decide)

/-- C2 — evaluation of `Pipeline.run` at the failing input.  In the pipeline
`[A (fails, no deps), B (no deps), C (depends on A)]`: only `A` and `B` are
ever executed (the planner checks dependencies against the `results` dict,
which is empty before execution, so the dependent step `C` is dropped and
absent from `results`); and the data map passed to `B`'s `execute` binds `A`
to `A`'s ACTUAL error output, not to the `step_failed` placeholder — the
placeholder is written to the separate `data` map that no later `execute`
call ever reads. -/
theorem run_passes_actual_error_output :
    runPlaceholderEx.calls.map Prod.fst = ["A", "B"] ∧
    (runPlaceholderEx.calls.get? 1).map (fun p => pyLookup "A".toList p.2) =
      some (some aErrOutput) ∧
    aErrOutput ≠ stepFailedPlaceholder "A" ∧
    pyLookup "A".toList runPlaceholderEx.data = some (stepFailedPlaceholder "A") ∧
    alookup "C" runPlaceholderEx.results = none ∧
    runPlaceholderEx.total_count = 2 := by
  refine ⟨by decide, by decide, by decide, by decide, by decide, by decide⟩

/-!  Association-list and data-map lemmas for the pipeline claims. -/

/-- Looking up the key just assigned yields the assigned value. -/
theorem alookup_aupdate_self {α : Type} (k : String) (v : α) (l : List (String × α)) :
    alookup k (aupdate k v l) = some v := by
  induction l with
  | nil => simp [aupdate, alookup]
  | cons p rest ih =>
    by_cases h : p.1 = k
    · simp [aupdate, alookup, h]
    · simp [aupdate, alookup, h, ih]

/-- Assigning one key leaves other keys' lookups unchanged. -/
theorem alookup_aupdate_ne {α : Type} (k n : String) (v : α) (l : List (String × α))
    (h : n ≠ k) : alookup n (aupdate k v l) = alookup n l := by
  induction l with
  | nil => simp [aupdate, alookup, Ne.symm h]
  | cons p rest ih =>
    by_cases hp : p.1 = k
    · simp [aupdate, alookup, hp, Ne.symm h]
    · simp only [aupdate, if_neg hp, alookup]
      by_cases hn : p.1 = n
      · simp [hn]
      · simp [hn, ih]

/-- A lookup misses exactly when the key is absent. -/
theorem alookup_eq_none_iff {α : Type} (k : String) (l : List (String × α)) :
    alookup k l = none ↔ k ∉ l.map Prod.fst := by
  induction l with
  | nil => simp [alookup]
  | cons p rest ih =>
    by_cases h : p.1 = k
    · simp [alookup, h]
    · simp [alookup, h, ih, Ne.symm h]

/-- The keys after an assignment are the old keys plus the assigned key. -/
theorem mem_aupdate_keys {α : Type} (k x : String) (v : α) (l : List (String × α)) :
    x ∈ (aupdate k v l).map Prod.fst ↔ x ∈ l.map Prod.fst ∨ x = k := by
  induction l with
  | nil => simp [aupdate]
  | cons p rest ih =>
    rcases p with ⟨pk, pv⟩
    by_cases h : pk = k
    · subst h
      simp [aupdate]
      tauto
    · simp [aupdate, h, ih]
      tauto

/-- Assignment preserves key distinctness. -/
theorem aupdate_nodup {α : Type} (k : String) (v : α) (l : List (String × α))
    (hn : (l.map Prod.fst).Nodup) : ((aupdate k v l).map Prod.fst).Nodup := by
  induction l with
  | nil => simp [aupdate]
  | cons p rest ih =>
    rw [List.map_cons, List.nodup_cons] at hn
    by_cases h : p.1 = k
    · rcases p with ⟨pk, pv⟩
      simp only at h
      subst h
      rw [aupdate, if_pos rfl, List.map_cons, List.nodup_cons]
      exact hn
    · rw [aupdate, if_neg h, List.map_cons, List.nodup_cons]
      refine ⟨?_, ih hn.2⟩
      intro hmem
      rcases (mem_aupdate_keys k p.1 v rest).mp hmem with h2 | h2
      · exact hn.1 h2
      · exact h h2

/-- Inserting one key leaves other keys' lookups unchanged. -/
theorem pyLookup_pyInsert_ne (k n : List Char) (v : Json) (l : JsonFields)
    (h : n ≠ k) : pyLookup n (pyInsert k v l) = pyLookup n l := by
  match l with
  | .nil => simp [pyInsert, pyLookup, Ne.symm h]
  | .cons k' v' rest =>
    by_cases hp : k' = k
    · simp [pyInsert, pyLookup, hp, Ne.symm h]
    · simp only [pyInsert, if_neg hp, pyLookup]
      by_cases hn : k' = n
      · simp [hn]
      · simp only [if_neg hn]
        exact pyLookup_pyInsert_ne k n v rest h

/-- Two strings with the same character list are equal. -/
theorem string_toList_inj {a b : String} (h : a.toList = b.toList) : a = b := by
  cases a
  cases b
  exact congrArg String.mk (by simpa [String.toList] using h)

/-- `robust_data` leaves a key alone when no recorded result uses it. -/
theorem robustData_lookup_absent (input : JsonFields)
    (results : List (String × StepResult)) (n : String)
    (h : ∀ p ∈ results, p.1 ≠ n) :
    pyLookup n.toList (robustData input results) = pyLookup n.toList input := by
  induction results generalizing input with
  | nil => rfl
  | cons p rest ih =>
    simp only [robustData] at ih ⊢
    rw [List.foldl_cons]
    rw [ih _ (fun q hq => h q (List.mem_cons_of_mem _ hq))]
    exact pyLookup_pyInsert_ne _ _ _ _
      (fun he => h p (List.mem_cons_self _ _) (string_toList_inj he.symm))

/-- `robust_data` binds every recorded step name to that step's coerced
output (provided the recorded names are distinct, which `Pipeline.run`
maintains). -/
theorem robustData_lookup_recorded (input : JsonFields)
    (results : List (String × StepResult)) (n : String) (r : StepResult)
    (hnd : (results.map Prod.fst).Nodup) (h : alookup n results = some r) :
    pyLookup n.toList (robustData input results) = some (coerceOutput r.output) := by
  induction results generalizing input with
  | nil => simp [alookup] at h
  | cons p rest ih =>
    rw [List.map_cons, List.nodup_cons] at hnd
    simp only [robustData] at ih ⊢
    rw [List.foldl_cons]
    by_cases hp : p.1 = n
    · have hr : r = p.2 := by
        rw [alookup, if_pos hp] at h
        exact (Option.some.injEq _ _ ▸ h).symm
      subst hr
      have habs : ∀ q ∈ rest, q.1 ≠ n := by
        intro q hq he
        apply hnd.1
        rw [hp, ← he]
        exact List.mem_map_of_mem Prod.fst hq
      have hstep := robustData_lookup_absent
        (pyInsert p.1.toList (coerceOutput p.2.output) input) rest n habs
      simp only [robustData] at hstep
      rw [hstep, hp]
      exact pyLookup_pyInsert_self _ _ _
    · rw [alookup, if_neg hp] at h
      exact ih _ hnd.2 h

/-- The execution loop never touches results of names outside its plan. -/
theorem execLoop_results_stable (steps : List PStep) (input : JsonFields)
    (plan : List String) :
    ∀ results data n, n ∉ plan →
      alookup n (execLoop steps input plan results data).1 = alookup n results := by
  induction plan with
  | nil => intro results data n _; rfl
  | cons name plan' ih =>
    intro results data n hn
    have hne : n ≠ name := fun he => hn (he ▸ List.mem_cons_self _ _)
    have hn' : n ∉ plan' := fun he => hn (List.mem_cons_of_mem _ he)
    rw [execLoop]
    rcases hf : steps.find? (fun s => s.name = name) with _ | step
    · rw [hf]
      exact ih results data n hn'
    · rw [hf]
      simp only []
      by_cases hm : (step.deps.filter (fun d => (alookup d results).isNone)).isEmpty = false
      · rw [if_pos hm]
        rw [ih _ data n hn']
        exact alookup_aupdate_ne _ _ _ _ hne
      · rw [if_neg hm]
        simp only []
        rw [ih _ _ n hn']
        exact alookup_aupdate_ne _ _ _ _ hne

/-- Every data map the execution loop passes to a step binds each
already-recorded name to that record's coerced output (given distinct
recorded names and plan names disjoint from recorded names, both of which
`Pipeline.run` provides). -/
theorem execLoop_call_binds (steps : List PStep) (input : JsonFields)
    (plan : List String) :
    ∀ results data n r, (results.map Prod.fst).Nodup →
      (∀ m ∈ plan, alookup m results = none) → plan.Nodup →
      alookup n results = some r →
      ∀ p ∈ (execLoop steps input plan results data).2.2,
        pyLookup n.toList p.2 = some (coerceOutput r.output) := by
  induction plan with
  | nil => intro results data n r _ _ _ _ p hp; simp [execLoop] at hp
  | cons name plan' ih =>
    intro results data n r hnd hdisj hplan hrec p hp
    rw [List.nodup_cons] at hplan
    have hnames : n ≠ name := fun he => by
      rw [he, hdisj name (List.mem_cons_self _ _)] at hrec
      exact Option.noConfusion hrec
    rw [execLoop] at hp
    rcases hf : steps.find? (fun s => s.name = name) with _ | step <;> rw [hf] at hp
    · exact ih results data n r hnd
        (fun m hm => hdisj m (List.mem_cons_of_mem _ hm)) hplan.2 hrec p hp
    · simp only [] at hp
      have hnone : alookup name results = none := hdisj name (List.mem_cons_self _ _)
      have hnotin : name ∉ results.map Prod.fst := (alookup_eq_none_iff _ _).mp hnone
      by_cases hm : (step.deps.filter (fun d => (alookup d results).isNone)).isEmpty = false
      · rw [if_pos hm] at hp
        refine ih _ data n r ?_ ?_ hplan.2 ?_ p hp
        · exact aupdate_nodup _ _ _ hnd
        · intro m hm2
          rw [alookup_aupdate_ne _ _ _ _ (fun he => hplan.1 (by rw [← he]; exact hm2))]
          exact hdisj m (List.mem_cons_of_mem _ hm2)
        · exact (alookup_aupdate_ne _ _ _ _ hnames).trans hrec
      · rw [if_neg hm] at hp
        simp only [] at hp
        rw [List.mem_cons] at hp
        rcases hp with hp | hp
        · subst hp
          exact robustData_lookup_recorded input results n r hnd hrec
        · refine ih _ _ n r ?_ ?_ hplan.2 ?_ p hp
          · exact aupdate_nodup _ _ _ hnd
          · intro m hm2
            rw [alookup_aupdate_ne _ _ _ _ (fun he => hplan.1 (by rw [← he]; exact hm2))]
            exact hdisj m (List.mem_cons_of_mem _ hm2)
          · exact (alookup_aupdate_ne _ _ _ _ hnames).trans hrec

/-- Pairwise binding across the execution order: the data map of a later
call binds each earlier call's name to the output recorded for it in the
final results. -/
theorem execLoop_calls_pairwise (steps : List PStep) (input : JsonFields)
    (plan : List String) :
    ∀ results data, (results.map Prod.fst).Nodup →
      (∀ m ∈ plan, alookup m results = none) → plan.Nodup →
      ∀ j pj, (execLoop steps input plan results data).2.2.get? j = some pj →
      ∀ i pi, i < j → (execLoop steps input plan results data).2.2.get? i = some pi →
      ∃ r, alookup pi.1 (execLoop steps input plan results data).1 = some r ∧
        pyLookup pi.1.toList pj.2 = some (coerceOutput r.output) := by
  induction plan with
  | nil =>
    intro results data _ _ _ j pj hj
    simp [execLoop] at hj
  | cons name plan' ih =>
    intro results data hnd hdisj hplan j pj hj i pi hij hi
    rw [List.nodup_cons] at hplan
    rw [execLoop] at hj hi ⊢
    rcases hf : steps.find? (fun s => s.name = name) with _ | step <;> rw [hf] at hj hi ⊢
    · exact ih results data hnd
        (fun m hm => hdisj m (List.mem_cons_of_mem _ hm)) hplan.2 j pj hj i pi hij hi
    · simp only [] at hj hi ⊢
      have hnone : alookup name results = none := hdisj name (List.mem_cons_self _ _)
      have hdisj' : ∀ ra,
          (∀ m ∈ plan', alookup m (aupdate name ra results) = none) := by
        intro ra m hm2
        rw [alookup_aupdate_ne _ _ _ _ (fun he => hplan.1 (by rw [← he]; exact hm2))]
        exact hdisj m (List.mem_cons_of_mem _ hm2)
      by_cases hm : (step.deps.filter (fun d => (alookup d results).isNone)).isEmpty = false
      · rw [if_pos hm] at hj hi ⊢
        exact ih _ data (aupdate_nodup _ _ _ hnd) (hdisj' _) hplan.2 j pj hj i pi hij hi
      · rw [if_neg hm] at hj hi ⊢
        simp only [] at hj hi ⊢
        cases j with
        | zero => exact absurd hij (Nat.not_lt_zero i)
        | succ j' =>
          rw [List.get?_cons_succ] at hj
          cases i with
          | zero =>
            rw [List.get?_cons_zero] at hi
            rcases hi with ⟨rfl⟩
            simp only []
            refine ⟨match step.exec (robustData input results) with
              | some r => r
              | none => timeoutResult step.model_name, ?_, ?_⟩
            · rw [execLoop_results_stable steps input plan' _ _ name hplan.1]
              exact alookup_aupdate_self _ _ _
            · refine execLoop_call_binds steps input plan' _ _ name _
                (aupdate_nodup _ _ _ hnd) (hdisj' _) hplan.2
                (alookup_aupdate_self _ _ _) pj (List.get?_mem hj)
          | succ i' =>
            rw [List.get?_cons_succ] at hi
            exact ih _ _ (aupdate_nodup _ _ _ hnd) (hdisj' _) hplan.2 j' pj hj i' pi
              (Nat.lt_of_succ_lt_succ hij) hi

/-- A dict comprehension always has distinct keys. -/
theorem buildGraph_keys_nodup (l : List (String × List String)) :
    ((buildGraph l).map Prod.fst).Nodup := by
  have main : ∀ (l : List (String × List String)) (g : List (String × List String)),
      (g.map Prod.fst).Nodup →
      ((l.foldl (fun g p => aupdate p.1 p.2 g) g).map Prod.fst).Nodup := by
    intro l
    induction l with
    | nil => intro g hg; exact hg
    | cons p rest ih =>
      intro g hg
      rw [List.foldl_cons]
      exact ih _ (aupdate_nodup _ _ _ hg)
  exact main l [] (by simp)

/-- Every planned name is a key of the remaining-steps dict. -/
theorem planLoop_subset (fuel : Nat) :
    ∀ remaining done x, x ∈ planLoop fuel remaining done →
      x ∈ remaining.map Prod.fst := by
  induction fuel with
  | zero => intro remaining done x hx; simp [planLoop] at hx
  | succ f ih =>
    intro remaining done x hx
    rcases remaining with _ | ⟨p, rest⟩
    · simp [planLoop] at hx
    · simp only [planLoop] at hx
      split at hx
      · simp at hx
      · rcases List.mem_append.mp hx with h1 | h1
        · rcases List.mem_map.mp h1 with ⟨q, hq, rfl⟩
          exact List.mem_map_of_mem Prod.fst (List.mem_of_mem_filter hq)
        · have := ih _ _ x h1
          rcases List.mem_map.mp this with ⟨q, hq, rfl⟩
          exact List.mem_map_of_mem Prod.fst (List.mem_of_mem_filter hq)

/-- The plan never schedules the same step name twice (given distinct keys in
the remaining-steps dict, which `buildGraph` guarantees). -/
theorem planLoop_nodup (fuel : Nat) :
    ∀ remaining done, ((remaining.map Prod.fst).Nodup) →
      (planLoop fuel remaining done).Nodup := by
  induction fuel with
  | zero => intro remaining done _; simp [planLoop]
  | succ f ih =>
    intro remaining done hnd
    rcases remaining with _ | ⟨p, rest⟩
    · simp [planLoop]
    · simp only [planLoop]
      split
      · simp
      · refine List.Nodup.append ?_ ?_ ?_
        · exact List.Nodup.sublist (List.Sublist.map _ (List.filter_sublist _)) hnd
        · exact ih _ _ (List.Nodup.sublist (List.Sublist.map _ (List.filter_sublist _)) hnd)
        · intro x hx1 hx2
          have hx3 := planLoop_subset f _ _ x hx2
          rcases List.mem_map.mp hx3 with ⟨q, hq, rfl⟩
          have hq2 := List.of_mem_filter hq
          rw [decide_eq_true_eq] at hq2
          exact hq2 hx1

/-- C10 — within one `Pipeline.run`, the data map passed to each executed
step's `execute` call binds the name of EVERY previously executed step —
dependency or not — to that step's recorded output object (coerced to
`{"response": str(output)}` when the output is not a dict), as recorded in
the final results. -/
theorem run_binds_previous_outputs (steps : List PStep) (input : JsonFields)
    (j : Nat) (pj : String × JsonFields) (i : Nat) (pi : String × JsonFields)
    (hij : i < j)
    (hj : (Pipeline_run steps input).calls.get? j = some pj)
    (hi : (Pipeline_run steps input).calls.get? i = some pi) :
    ∃ r, alookup pi.1 (Pipeline_run steps input).results = some r ∧
      pyLookup pi.1.toList pj.2 = some (coerceOutput r.output) := by
  have hplan : (planLoop ((buildGraph (steps.map (fun s => (s.name, s.deps)))).length + 1)
      (buildGraph (steps.map (fun s => (s.name, s.deps)))) []).Nodup :=
    planLoop_nodup _ _ _ (buildGraph_keys_nodup _)
  exact execLoop_calls_pairwise steps input _ [] input (by simp)
    (fun m _ => rfl) hplan j pj hj i pi hij hi

/-- Witness for `run_binds_previous_outputs`: in the concrete failed-A run,
`B`'s data map binds `A` to `A`'s recorded (actual error) output. -/
theorem run_binds_previous_outputs_witness :
    ∃ r, alookup "A" runPlaceholderEx.results = some r ∧
      pyLookup "A".toList
        (fieldsOf [("query".toList, Json.str ['q']),
                   ("A".toList, aErrOutput)]) = some (coerceOutput r.output) :=
  run_binds_previous_outputs [stepAFail, stepBOk, stepCDep]
    (fieldsOf [("query".toList, Json.str ['q'])]) 1
    ("B", fieldsOf [("query".toList, Json.str ['q']), ("A".toList, aErrOutput)]) 0
    ("A", fieldsOf [("query".toList, Json.str ['q'])])
    (by decide) (by decide) (by decide)

/-!  Concurrency: the lock discipline (claim C9). -/

/-- C9 (counterexample) — the health probes `get_fallback_model` launches
with `asyncio.gather` issue their generate requests WITHOUT the model lock,
so two requests can be in flight at once: from two gathered
`check_model_health` tasks the scheduler can run both sends before either
receive, reaching a state with `inflight = 2`.  This refutes "at most one
HTTP generate/chat request is in flight at any instant". -/
theorem health_probes_not_serialized :
    ¬ (∀ s, CReach (initTasks 2 health_check_task) s → s.inflight ≤ 1) := by
  intro hall
  have hstep1 : CStep (initTasks 2 health_check_task)
      ⟨[[Act.recv], [Act.send, Act.recv]], none, 1⟩ :=
    @CStep.send (initTasks 2 health_check_task) 0 [Act.recv] (by decide)
  have hstep2 : CStep (⟨[[Act.recv], [Act.send, Act.recv]], none, 1⟩ : CState)
      ⟨[[Act.recv], [Act.recv]], none, 2⟩ :=
    @CStep.send ⟨[[Act.recv], [Act.send, Act.recv]], none, 1⟩ 1 [Act.recv] (by decide)
  have hreach : CReach (initTasks 2 health_check_task)
      ⟨[[Act.recv], [Act.recv]], none, 2⟩ :=
    Relation.ReflTransGen.head hstep1
      (Relation.ReflTransGen.head hstep2 Relation.ReflTransGen.refl)
  exact absurd (hall _ hreach) (by decide)

/-- The invariant holds initially: no task has started, nothing in flight. -/
theorem LockInv_init (n : Nat) : LockInv (initTasks n locked_generate_task) := by
  refine ⟨?_, ?_, ?_, ?_, ?_⟩
  · intro i p hp
    exact Or.inl (List.eq_of_mem_replicate (List.get?_mem hp))
  · intro i p hp hne _
    exact absurd (List.eq_of_mem_replicate (List.get?_mem hp)) hne
  · exact Nat.zero_le 1
  · intro h01
    simp [initTasks] at h01
  · intro i hp
    exact absurd (List.eq_of_mem_replicate (List.get?_mem hp)) (by decide)

/-- The invariant is preserved by every scheduler step. -/
theorem LockInv_step {s s' : CState} (hs : LockInv s) (hstep : CStep s s') :
    LockInv s' := by
  obtain ⟨h1, h2, h3, h4, h5⟩ := hs
  have hlen : ∀ {i : Nat} {p : List Act}, s.tasks.get? i = some p → i < s.tasks.length := by
    intro i p hp
    by_contra hc
    rw [List.get?_eq_none.mpr (Nat.le_of_not_lt hc)] at hp
    exact Option.noConfusion hp
  cases hstep with
  | acquire h hl =>
    rename_i i rest
    have hrest : rest = [Act.send, Act.recv, Act.release] := by
      rcases h1 i _ h with h' | h' | h' | h' | h' <;>
        simp [locked_generate_task] at h' <;> exact h'
    subst hrest
    refine ⟨?_, ?_, h3, ?_, ?_⟩
    · intro j p hp
      by_cases hij : i = j
      · subst hij
        rw [List.get?_set_eq_of_lt _ (hlen h)] at hp
        rcases hp with ⟨rfl⟩
        exact Or.inr (Or.inl rfl)
      · rw [List.get?_set_ne _ _ hij] at hp
        exact h1 j p hp
    · intro j p hp hne hne2
      by_cases hij : i = j
      · exact congrArg some hij
      · rw [List.get?_set_ne _ _ hij] at hp
        rw [h2 j p hp hne hne2] at hl
        exact Option.noConfusion hl
    · intro hif
      obtain ⟨k, hk⟩ := h4 hif
      rw [h2 k _ hk (by decide) (by decide)] at hl
      exact Option.noConfusion hl
    · intro j hp
      by_cases hij : i = j
      · subst hij
        rw [List.get?_set_eq_of_lt _ (hlen h)] at hp
        simp at hp
      · rw [List.get?_set_ne _ _ hij] at hp
        exact h5 j hp
  | release h hl =>
    rename_i i rest
    have hrest : rest = [] := by
      rcases h1 i _ h with h' | h' | h' | h' | h' <;>
        simp [locked_generate_task] at h' <;> exact h'
    subst hrest
    refine ⟨?_, ?_, h3, ?_, ?_⟩
    · intro j p hp
      by_cases hij : i = j
      · subst hij
        rw [List.get?_set_eq_of_lt _ (hlen h)] at hp
        rcases hp with ⟨rfl⟩
        exact Or.inr (Or.inr (Or.inr (Or.inr rfl)))
      · rw [List.get?_set_ne _ _ hij] at hp
        exact h1 j p hp
    · intro j p hp hne hne2
      by_cases hij : i = j
      · subst hij
        rw [List.get?_set_eq_of_lt _ (hlen h)] at hp
        rcases hp with ⟨rfl⟩
        exact absurd rfl hne2
      · rw [List.get?_set_ne _ _ hij] at hp
        have := (h2 j p hp hne hne2).symm.trans hl
        exact absurd (Option.some.injEq _ _ ▸ this) (fun he => hij he.symm)
    · intro hif
      obtain ⟨k, hk⟩ := h4 hif
      have hki := (h2 k _ hk (by decide) (by decide)).symm.trans hl
      have hk2 : k = i := Option.some.injEq _ _ ▸ hki
      subst hk2
      rw [h] at hk
      simp at hk
    · intro j hp
      by_cases hij : i = j
      · subst hij
        rw [List.get?_set_eq_of_lt _ (hlen h)] at hp
        simp at hp
      · rw [List.get?_set_ne _ _ hij] at hp
        exact h5 j hp
  | send h =>
    rename_i i rest
    have hrest : rest = [Act.recv, Act.release] := by
      rcases h1 i _ h with h' | h' | h' | h' | h' <;>
        simp [locked_generate_task] at h' <;> exact h'
    subst hrest
    have hlock : s.lock = some i := h2 i _ h (by decide) (by decide)
    have hif0 : s.inflight = 0 := by
      rcases Nat.lt_or_ge s.inflight 1 with hlt | hge
      · exact Nat.lt_one_iff.mp hlt
      · have hif1 : s.inflight = 1 := Nat.le_antisymm h3 hge
        obtain ⟨k, hk⟩ := h4 hif1
        have hki : k = i := by
          have := (h2 k _ hk (by decide) (by decide)).symm.trans hlock
          exact Option.some.injEq _ _ ▸ this
        subst hki
        rw [h] at hk
        simp at hk
    refine ⟨?_, ?_, ?_, ?_, ?_⟩
    · intro j p hp
      by_cases hij : i = j
      · subst hij
        rw [List.get?_set_eq_of_lt _ (hlen h)] at hp
        rcases hp with ⟨rfl⟩
        exact Or.inr (Or.inr (Or.inl rfl))
      · rw [List.get?_set_ne _ _ hij] at hp
        exact h1 j p hp
    · intro j p hp hne hne2
      by_cases hij : i = j
      · rw [hlock]
        exact congrArg some hij
      · rw [List.get?_set_ne _ _ hij] at hp
        have := (h2 j p hp hne hne2).symm.trans hlock
        exact absurd (Option.some.injEq _ _ ▸ this) (fun he => hij he.symm)
    · simp only [hif0]
      exact Nat.le_refl 1
    · intro _
      exact ⟨i, by rw [List.get?_set_eq_of_lt _ (hlen h)]⟩
    · intro j _
      simp only [hif0]
  | recv h =>
    rename_i i rest
    have hrest : rest = [Act.release] := by
      rcases h1 i _ h with h' | h' | h' | h' | h' <;>
        simp [locked_generate_task] at h' <;> exact h'
    subst hrest
    have hlock : s.lock = some i := h2 i _ h (by decide) (by decide)
    have hif1 : s.inflight = 1 := h5 i h
    refine ⟨?_, ?_, ?_, ?_, ?_⟩
    · intro j p hp
      by_cases hij : i = j
      · subst hij
        rw [List.get?_set_eq_of_lt _ (hlen h)] at hp
        rcases hp with ⟨rfl⟩
        exact Or.inr (Or.inr (Or.inr (Or.inl rfl)))
      · rw [List.get?_set_ne _ _ hij] at hp
        exact h1 j p hp
    · intro j p hp hne hne2
      by_cases hij : i = j
      · rw [hlock]
        exact congrArg some hij
      · rw [List.get?_set_ne _ _ hij] at hp
        have := (h2 j p hp hne hne2).symm.trans hlock
        exact absurd (Option.some.injEq _ _ ▸ this) (fun he => hij he.symm)
    · simp only [hif1]
      exact Nat.zero_le 1
    · intro hif
      dsimp only at hif
      rw [hif1] at hif
      exact absurd hif (by decide)
    · intro j hp
      by_cases hij : i = j
      · subst hij
        rw [List.get?_set_eq_of_lt _ (hlen h)] at hp
        simp at hp
      · rw [List.get?_set_ne _ _ hij] at hp
        have := (h2 j _ hp (by decide) (by decide)).symm.trans hlock
        exact absurd (Option.some.injEq _ _ ▸ this) (fun he => hij he.symm)

/-- C9 (amended) — requests issued through `generate_with_model` /
`generate_with_chat` ARE serialized: each runs inside
`async with self.model_lock`, and in every state reachable from any number of
such concurrently scheduled calls, at most one request is in flight.  (The
health-probe requests run outside the lock — see the counterexample.) -/
theorem locked_generate_requests_serialized (n : Nat) (s : CState)
    (h : CReach (initTasks n locked_generate_task) s) : s.inflight ≤ 1 := by
  have hinv : LockInv s := by
    induction h with
    | refl => exact LockInv_init n
    | tail _ hstep ih => exact LockInv_step ih hstep
  exact hinv.2.2.1

/-- Witness for `locked_generate_requests_serialized` at the initial state of
two locked generate calls. -/
theorem locked_generate_requests_serialized_witness :
    (initTasks 2 locked_generate_task).inflight ≤ 1 :=
  locked_generate_requests_serialized 2 (initTasks 2 locked_generate_task)
    Relation.ReflTransGen.refl

/-!  Cycle detection at pipeline construction (claim C7). -/

/-- A key whose lookup succeeds is among the stored keys. -/
theorem alookup_isSome_mem {α : Type} (k : String) (l : List (String × α))
    (h : (alookup k l).isSome = true) : k ∈ l.map Prod.fst := by
  by_contra hc
  rw [(alookup_eq_none_iff k l).mpr hc] at h
  simp at h

/-- A successful lookup exhibits a stored pair. -/
theorem alookup_mem {α : Type} (k : String) (v : α) :
    ∀ (l : List (String × α)), alookup k l = some v → (k, v) ∈ l := by
  intro l
  induction l with
  | nil => intro h; simp [alookup] at h
  | cons p t ih =>
    intro h
    rcases p with ⟨pk, pv⟩
    rw [alookup] at h
    by_cases hk : pk = k
    · rw [if_pos hk] at h
      injection h with h2
      subst h2
      subst hk
      exact List.mem_cons_self _ _
    · rw [if_neg hk] at h
      exact List.mem_cons_of_mem _ (ih h)

/-- A graph in which every node's dependency list is empty has no cycle. -/
theorem noEdge_no_cycle (g : List (String × List String))
    (hall : ∀ p ∈ g, p.2 = ([] : List String)) : ¬ hasCycle g := by
  rintro ⟨n, hn⟩
  obtain ⟨c, hc, -⟩ := Relation.TransGen.head'_iff.mp hn
  obtain ⟨deps, hd, hm, -⟩ := hc
  have hd2 : deps = [] := hall (n, deps) (alookup_mem n deps g hd)
  rw [hd2] at hm
  exact absurd hm (List.not_mem_nil c)

/-- A chain whose list ends in `z` yields a transitive edge path to `z`. -/
theorem chain_getLast_transGen {α : Type} {R : α → α → Prop} :
    ∀ (l : List α) (a z : α), List.Chain R a l → l.getLast? = some z →
      Relation.TransGen R a z := by
  intro l
  induction l with
  | nil => intro a z _ hz; exact absurd hz (by simp)
  | cons b t ih =>
    intro a z hch hz
    rw [List.chain_cons] at hch
    cases t with
    | nil =>
      simp at hz
      subst hz
      exact Relation.TransGen.single hch.1
    | cons c t2 =>
      rw [List.getLast?_cons_cons] at hz
      exact Relation.TransGen.head hch.1 (ih b z hch.2 hz)

/-- A genuine cycle list witnesses `hasCycle`. -/
theorem realCycle_hasCycle (g : List (String × List String)) (cyc : List String)
    (h : realCycle g cyc) : hasCycle g := by
  obtain ⟨hlen, hhl, hch⟩ := h
  cases cyc with
  | nil => simp at hlen
  | cons a t =>
    cases t with
    | nil => simp at hlen
    | cons b t2 =>
      have hchain : List.Chain (hasEdge g) a (b :: t2) := hch
      have hlast : (b :: t2).getLast? = some a := by
        have h1 : (a :: b :: t2).head? = some a := rfl
        rw [h1, List.getLast?_cons_cons] at hhl
        exact hhl.symm
      exact ⟨a, chain_getLast_transGen _ a a hchain hlast⟩

/-- Dropping up to the first occurrence of a member exposes it at the head. -/
theorem drop_indexOf (n : String) : ∀ (l : List String), n ∈ l →
    ∃ t, l.drop (l.indexOf n) = n :: t := by
  intro l
  induction l with
  | nil => intro h; exact absurd h (List.not_mem_nil n)
  | cons a t ih =>
    intro h
    by_cases ha : a = n
    · subst ha
      exact ⟨t, by rw [List.indexOf_cons_self]; rfl⟩
    · have hn : n ∈ t := by
        rcases List.mem_cons.mp h with h1 | h1
        · exact absurd h1.symm ha
        · exact h1
      obtain ⟨t2, ht2⟩ := ih hn
      refine ⟨t2, ?_⟩
      rw [List.indexOf_cons_ne _ ha]
      exact ht2

/-- Everything reachable from a finished (black) node is black, given the
black-closure part of `DfsInv`. -/
theorem black_reach (g : List (String × List String))
    (visited path : List String)
    (hbc : ∀ x ∈ visited, x ∉ path → ∀ y, hasEdge g x y → y ∈ visited ∧ y ∉ path)
    {x z : String} (hx : x ∈ visited) (hxp : x ∉ path)
    (hr : Relation.ReflTransGen (hasEdge g) x z) : z ∈ visited ∧ z ∉ path := by
  induction hr with
  | refl => exact ⟨hx, hxp⟩
  | tail hr2 hstep ih => exact hbc _ ih.1 ih.2 _ hstep

/-- The DFS only ever grows the visited list. -/
theorem dfsList_ok_mono (g : List (String × List String)) :
    ∀ (fuel : Nat) (wl visited path v : List String),
      dfsList g fuel wl visited path = .ok v → ∀ x ∈ visited, x ∈ v := by
  intro fuel
  induction fuel with
  | zero =>
    intro wl visited path v h
    cases wl with
    | nil =>
      simp only [dfsList, DfsRes.ok.injEq] at h
      subst h
      exact fun x hx => hx
    | cons n rest => simp [dfsList] at h
  | succ f ih =>
    intro wl visited path v h
    cases wl with
    | nil =>
      simp only [dfsList, DfsRes.ok.injEq] at h
      subst h
      exact fun x hx => hx
    | cons n rest =>
      rw [dfsList] at h
      by_cases hdef : (alookup n g).isSome = false
      · rw [if_pos hdef] at h
        exact ih rest visited path v h
      · rw [if_neg hdef] at h
        by_cases hpath : n ∈ path
        · rw [if_pos hpath] at h
          simp at h
        · rw [if_neg hpath] at h
          by_cases hvis : n ∈ visited
          · rw [if_pos hvis] at h
            exact ih rest visited path v h
          · rw [if_neg hvis] at h
            cases hfst : dfsList g f ((alookup n g).getD []) (visited ++ [n])
                (path ++ [n]) with
            | ok v2 =>
              rw [hfst] at h
              intro x hx
              exact ih rest v2 path v h x
                (ih _ _ _ _ hfst x (List.mem_append_left _ hx))
            | cycleErr c =>
              rw [hfst] at h
              simp at h
            | outOfFuel =>
              rw [hfst] at h
              simp at h

/-- Unfolding the remaining-work measure over the head entry of the graph. -/
theorem dfsMeasure_cons (pk : String) (pv : List String)
    (t : List (String × List String)) (visited : List String) :
    dfsMeasure ((pk, pv) :: t) visited =
      (if pk ∈ visited then 0 else 1 + pv.length) + dfsMeasure t visited := by
  by_cases h : pk ∈ visited
  · simp [dfsMeasure, List.filter_cons, h]
  · simp [dfsMeasure, List.filter_cons, h]

/-- Visiting a defined, unvisited node removes exactly its own weight from
the remaining-work measure. -/
theorem dfsMeasure_insert (n : String) (deps : List String) :
    ∀ (g : List (String × List String)) (visited : List String),
      (g.map Prod.fst).Nodup → alookup n g = some deps → n ∉ visited →
      dfsMeasure g visited = dfsMeasure g (visited ++ [n]) + (1 + deps.length) := by
  intro g
  induction g with
  | nil => intro visited _ hd _; simp [alookup] at hd
  | cons p t ih =>
    intro visited hnd hd hn
    rcases p with ⟨pk, pv⟩
    rw [List.map_cons, List.nodup_cons] at hnd
    rw [alookup] at hd
    rw [dfsMeasure_cons, dfsMeasure_cons]
    by_cases hk : pk = n
    · rw [if_pos hk] at hd
      injection hd with hd2
      have hfl : t.filter (fun q => decide (q.1 ∉ visited))
          = t.filter (fun q => decide (q.1 ∉ visited ++ [n])) := by
        apply List.filter_congr
        intro q hq
        have hqn : q.1 ≠ n := fun he =>
          hnd.1 (hk ▸ he ▸ List.mem_map.mpr ⟨q, hq, rfl⟩)
        simp [List.mem_append, hqn]
      have hfeq : dfsMeasure t visited = dfsMeasure t (visited ++ [n]) := by
        unfold dfsMeasure
        rw [hfl]
      have hnotin : pk ∉ visited := by rw [hk]; exact hn
      have hin : pk ∈ visited ++ [n] := by
        rw [hk]; exact List.mem_append_right _ (by simp)
      rw [if_neg hnotin, if_pos hin, hfeq, hd2]
      omega
    · rw [if_neg hk] at hd
      have hrec := ih visited hnd.2 hd hn
      have hiff : pk ∈ visited ++ [n] ↔ pk ∈ visited := by
        constructor
        · intro hmem
          rcases List.mem_append.mp hmem with h2 | h2
          · exact h2
          · exact absurd (by simpa using h2) hk
        · exact fun hm => List.mem_append_left _ hm
      by_cases hpv : pk ∈ visited
      · rw [if_pos hpv, if_pos (hiff.mpr hpv), hrec]
        omega
      · rw [if_neg hpv, if_neg (fun hmem => hpv (hiff.mp hmem)), hrec]
        omega

/-- The remaining-work measure shrinks as the visited list grows. -/
theorem dfsMeasure_anti (g : List (String × List String)) (v1 v2 : List String)
    (hsub : ∀ x, x ∈ v1 → x ∈ v2) : dfsMeasure g v2 ≤ dfsMeasure g v1 := by
  apply List.Sublist.sum_le_sum _ (fun a _ => Nat.zero_le a)
  apply List.Sublist.map
  apply List.monotone_filter_right
  intro p hp
  simp at hp ⊢
  exact fun hm => hp (hsub _ hm)

/-- With fuel exceeding the worklist length plus the remaining-work measure,
the DFS never runs out of fuel; in particular `dfsFuel` always suffices. -/
theorem dfsList_no_outOfFuel (g : List (String × List String))
    (hnd : (g.map Prod.fst).Nodup) :
    ∀ (fuel : Nat) (wl visited path : List String),
      wl.length + dfsMeasure g visited < fuel →
      dfsList g fuel wl visited path ≠ .outOfFuel := by
  intro fuel
  induction fuel with
  | zero => intro wl visited path hlt; exact absurd hlt (Nat.not_lt_zero _)
  | succ f ih =>
    intro wl visited path hlt
    cases wl with
    | nil => simp [dfsList]
    | cons n rest =>
      have hlen : (n :: rest).length = rest.length + 1 := rfl
      rw [hlen] at hlt
      rw [dfsList]
      by_cases hdef : (alookup n g).isSome = false
      · rw [if_pos hdef]
        apply ih
        omega
      · rw [if_neg hdef]
        by_cases hpath : n ∈ path
        · rw [if_pos hpath]; simp
        · rw [if_neg hpath]
          by_cases hvis : n ∈ visited
          · rw [if_pos hvis]
            apply ih
            omega
          · rw [if_neg hvis]
            have hsome : (alookup n g).isSome = true := by
              rcases h2 : (alookup n g).isSome
              · exact absurd h2 hdef
              · rfl
            obtain ⟨deps, hdeps⟩ := Option.isSome_iff_exists.mp hsome
            have hkey := dfsMeasure_insert n deps g visited hnd hdeps hvis
            have hgetd : (alookup n g).getD [] = deps := by rw [hdeps]; rfl
            rw [hgetd]
            have hb1 : deps.length + dfsMeasure g (visited ++ [n]) < f := by omega
            cases hfst : dfsList g f deps (visited ++ [n]) (path ++ [n]) with
            | ok v2 =>
              show dfsList g f rest v2 path ≠ .outOfFuel
              apply ih
              have hmono : ∀ x ∈ visited ++ [n], x ∈ v2 :=
                dfsList_ok_mono g f _ _ _ _ hfst
              have hanti := dfsMeasure_anti g (visited ++ [n]) v2 hmono
              omega
            | cycleErr c => simp
            | outOfFuel =>
              exact absurd hfst (ih deps (visited ++ [n]) (path ++ [n]) hb1)

/-- Membership in `l ++ [n]` for an element other than `n` is membership
in `l`. -/
theorem mem_of_mem_append_singleton {x n : String} {l : List String}
    (hx : x ∈ l ++ [n]) (hxn : x ≠ n) : x ∈ l := by
  rcases List.mem_append.mp hx with h2 | h2
  · exact h2
  · exact absurd (by simpa using h2) hxn

/-- Non-membership extends over appending a distinct singleton. -/
theorem not_mem_append_singleton {x n : String} {l : List String}
    (hx : x ∉ l) (hxn : x ≠ n) : x ∉ l ++ [n] := by
  intro hp
  rcases List.mem_append.mp hp with h2 | h2
  · exact hx h2
  · exact hxn (by simpa using h2)

/-- If the DFS raises the circular-dependency error, the list in the error
message is a genuine dependency cycle.  The hypotheses are the recursion
invariants: the in-progress path is an edge chain, and every defined
worklist entry is an edge target of the path's last node. -/
theorem dfsList_cycleErr_spec (g : List (String × List String)) :
    ∀ (fuel : Nat) (wl visited path cyc : List String),
      dfsList g fuel wl visited path = .cycleErr cyc →
      List.Chain' (hasEdge g) path →
      (∀ m ∈ wl, (alookup m g).isSome = true →
        ∀ z, path.getLast? = some z → hasEdge g z m) →
      realCycle g cyc := by
  intro fuel
  induction fuel with
  | zero =>
    intro wl visited path cyc h _ _
    cases wl with
    | nil => simp [dfsList] at h
    | cons n rest => simp [dfsList] at h
  | succ f ih =>
    intro wl visited path cyc h hch hlast
    cases wl with
    | nil => simp [dfsList] at h
    | cons n rest =>
      rw [dfsList] at h
      by_cases hdef : (alookup n g).isSome = false
      · rw [if_pos hdef] at h
        exact ih rest visited path cyc h hch
          (fun m hm hdm z hz => hlast m (List.mem_cons_of_mem _ hm) hdm z hz)
      · rw [if_neg hdef] at h
        have hsome : (alookup n g).isSome = true := by
          rcases h2 : (alookup n g).isSome
          · exact absurd h2 hdef
          · rfl
        by_cases hpath : n ∈ path
        · rw [if_pos hpath] at h
          injection h with hcy
          subst hcy
          obtain ⟨t, ht⟩ := drop_indexOf n path hpath
          refine ⟨?_, ?_, ?_⟩
          · rw [ht, List.cons_append]
            simp
          · rw [ht, List.getLast?_concat, List.cons_append]
            rfl
          · rw [List.chain'_append]
            refine ⟨List.Chain'.suffix hch (List.drop_suffix _ _), by simp, ?_⟩
            intro x hx y hy
            simp at hy
            subst hy
            have hne : path.drop (path.indexOf n) ≠ [] := by rw [ht]; simp
            have hplast : path.getLast? = some x := by
              rw [← List.take_append_drop (path.indexOf n) path,
                List.getLast?_append_of_ne_nil _ hne]
              exact Option.mem_def.mp hx
            exact hlast n (List.mem_cons_self _ _) hsome x hplast
        · rw [if_neg hpath] at h
          by_cases hvis : n ∈ visited
          · rw [if_pos hvis] at h
            exact ih rest visited path cyc h hch
              (fun m hm hdm z hz => hlast m (List.mem_cons_of_mem _ hm) hdm z hz)
          · rw [if_neg hvis] at h
            obtain ⟨deps, hdeps⟩ := Option.isSome_iff_exists.mp hsome
            have hgetd : (alookup n g).getD [] = deps := by rw [hdeps]; rfl
            rw [hgetd] at h
            have hchx : List.Chain' (hasEdge g) (path ++ [n]) := by
              rw [List.chain'_append]
              refine ⟨hch, by simp, ?_⟩
              intro x hx y hy
              simp at hy
              subst hy
              exact hlast n (List.mem_cons_self _ _) hsome x (Option.mem_def.mp hx)
            cases hfst : dfsList g f deps (visited ++ [n]) (path ++ [n]) with
            | ok v2 =>
              rw [hfst] at h
              have h2 : dfsList g f rest v2 path = .cycleErr cyc := h
              exact ih rest v2 path cyc h2 hch
                (fun m hm hdm z hz => hlast m (List.mem_cons_of_mem _ hm) hdm z hz)
            | cycleErr c =>
              rw [hfst] at h
              have h2 : DfsRes.cycleErr c = DfsRes.cycleErr cyc := h
              injection h2 with h3
              subst h3
              apply ih deps (visited ++ [n]) (path ++ [n]) c hfst hchx
              intro m hm hdm z hz
              rw [List.getLast?_concat] at hz
              injection hz with hz2
              subst hz2
              exact ⟨deps, hdeps, hm, hdm⟩
            | outOfFuel =>
              rw [hfst] at h
              have h2 : DfsRes.outOfFuel = DfsRes.cycleErr cyc := h
              exact absurd h2 (by simp)

/-- If the DFS completes without error, the visited set has only grown, the
colouring invariant still holds, and every defined worklist entry is finished
and off the path.  Instantiated at the top level this says a clean
`_validate_steps` run rules out any dependency cycle. -/
theorem dfsList_ok_spec (g : List (String × List String)) :
    ∀ (fuel : Nat) (wl visited path v : List String),
      dfsList g fuel wl visited path = .ok v →
      DfsInv g visited path →
      (∀ x ∈ visited, x ∈ v) ∧ DfsInv g v path ∧
        (∀ m ∈ wl, (alookup m g).isSome = true → m ∈ v ∧ m ∉ path) := by
  intro fuel
  induction fuel with
  | zero =>
    intro wl visited path v h hinv
    cases wl with
    | nil =>
      simp only [dfsList, DfsRes.ok.injEq] at h
      subst h
      exact ⟨fun x hx => hx, hinv, fun m hm => absurd hm (List.not_mem_nil m)⟩
    | cons n rest => simp [dfsList] at h
  | succ f ih =>
    intro wl visited path v h hinv
    cases wl with
    | nil =>
      simp only [dfsList, DfsRes.ok.injEq] at h
      subst h
      exact ⟨fun x hx => hx, hinv, fun m hm => absurd hm (List.not_mem_nil m)⟩
    | cons n rest =>
      rw [dfsList] at h
      by_cases hdef : (alookup n g).isSome = false
      · rw [if_pos hdef] at h
        obtain ⟨hsub, hinv2, hwl⟩ := ih rest visited path v h hinv
        refine ⟨hsub, hinv2, ?_⟩
        intro m hm hdm
        rcases List.mem_cons.mp hm with rfl | hm2
        · rw [hdm] at hdef
          simp at hdef
        · exact hwl m hm2 hdm
      · rw [if_neg hdef] at h
        have hsome : (alookup n g).isSome = true := by
          rcases h2 : (alookup n g).isSome
          · exact absurd h2 hdef
          · rfl
        by_cases hpath : n ∈ path
        · rw [if_pos hpath] at h
          simp at h
        · rw [if_neg hpath] at h
          by_cases hvis : n ∈ visited
          · rw [if_pos hvis] at h
            obtain ⟨hsub, hinv2, hwl⟩ := ih rest visited path v h hinv
            refine ⟨hsub, hinv2, ?_⟩
            intro m hm hdm
            rcases List.mem_cons.mp hm with rfl | hm2
            · exact ⟨hsub m hvis, hpath⟩
            · exact hwl m hm2 hdm
          · rw [if_neg hvis] at h
            obtain ⟨deps, hdeps⟩ := Option.isSome_iff_exists.mp hsome
            have hgetd : (alookup n g).getD [] = deps := by rw [hdeps]; rfl
            rw [hgetd] at h
            obtain ⟨hbc, hnr, hnc⟩ := hinv
            have hself : n ∈ visited ++ [n] := List.mem_append_right _ (by simp)
            have hinv1 : DfsInv g (visited ++ [n]) (path ++ [n]) := by
              refine ⟨?_, ?_, ?_⟩
              · intro x hx hxp y hxy
                have hxn : x ≠ n := fun he =>
                  hxp (he ▸ List.mem_append_right _ (by simp))
                have hxv : x ∈ visited := mem_of_mem_append_singleton hx hxn
                have hxp0 : x ∉ path := fun hp => hxp (List.mem_append_left _ hp)
                obtain ⟨hyv, hyp⟩ := hbc x hxv hxp0 y hxy
                have hyn : y ≠ n := fun he => hvis (he ▸ hyv)
                exact ⟨List.mem_append_left _ hyv, not_mem_append_singleton hyp hyn⟩
              · intro x hx hxp z hz hreach
                have hxn : x ≠ n := fun he =>
                  hxp (he ▸ List.mem_append_right _ (by simp))
                have hxv : x ∈ visited := mem_of_mem_append_singleton hx hxn
                have hxp0 : x ∉ path := fun hp => hxp (List.mem_append_left _ hp)
                rcases List.mem_append.mp hz with hz2 | hz2
                · exact hnr x hxv hxp0 z hz2 hreach
                · have hzn : z = n := by simpa using hz2
                  subst hzn
                  obtain ⟨hzv, -⟩ := black_reach g visited path hbc hxv hxp0 hreach
                  exact hvis hzv
              · intro x hx hxp
                have hxn : x ≠ n := fun he =>
                  hxp (he ▸ List.mem_append_right _ (by simp))
                have hxv : x ∈ visited := mem_of_mem_append_singleton hx hxn
                exact hnc x hxv (fun hp => hxp (List.mem_append_left _ hp))
            cases hfst : dfsList g f deps (visited ++ [n]) (path ++ [n]) with
            | ok v2 =>
              rw [hfst] at h
              have h2 : dfsList g f rest v2 path = .ok v := h
              obtain ⟨hsub1, hinv1b, hwl1⟩ :=
                ih deps (visited ++ [n]) (path ++ [n]) v2 hfst hinv1
              obtain ⟨hbc1, hnr1, hnc1⟩ := hinv1b
              have hdep : ∀ y, hasEdge g n y → y ∈ v2 ∧ y ∉ path ++ [n] := by
                intro y hy
                obtain ⟨d2, hd2, hmy, hdy⟩ := hy
                rw [hdeps] at hd2
                injection hd2 with hd3
                subst hd3
                exact hwl1 y hmy hdy
              have hnreach : ∀ z ∈ path, ¬ Relation.ReflTransGen (hasEdge g) n z := by
                intro z hz hr
                rcases Relation.ReflTransGen.cases_head hr with rfl | ⟨c, hc, hr2⟩
                · exact hpath hz
                · obtain ⟨hcv, hcp⟩ := hdep c hc
                  exact hnr1 c hcv hcp z (List.mem_append_left _ hz) hr2
              have hncyc : ¬ Relation.TransGen (hasEdge g) n n := by
                intro ht
                obtain ⟨c, hc, hr2⟩ := Relation.TransGen.head'_iff.mp ht
                obtain ⟨hcv, hcp⟩ := hdep c hc
                exact hnr1 c hcv hcp n (List.mem_append_right _ (by simp)) hr2
              have hinv2 : DfsInv g v2 path := by
                refine ⟨?_, ?_, ?_⟩
                · intro x hx hxp y hxy
                  by_cases hxn : x = n
                  · subst hxn
                    obtain ⟨hyv, hyp1⟩ := hdep y hxy
                    exact ⟨hyv, fun hp => hyp1 (List.mem_append_left _ hp)⟩
                  · obtain ⟨hyv, hyp1⟩ :=
                      hbc1 x hx (not_mem_append_singleton hxp hxn) y hxy
                    exact ⟨hyv, fun hp => hyp1 (List.mem_append_left _ hp)⟩
                · intro x hx hxp z hz hr
                  by_cases hxn : x = n
                  · subst hxn
                    exact hnreach z hz hr
                  · exact hnr1 x hx (not_mem_append_singleton hxp hxn) z
                      (List.mem_append_left _ hz) hr
                · intro x hx hxp
                  by_cases hxn : x = n
                  · subst hxn
                    exact hncyc
                  · exact hnc1 x hx (not_mem_append_singleton hxp hxn)
              obtain ⟨hsub2, hinv3, hwl2⟩ := ih rest v2 path v h2 hinv2
              refine ⟨?_, hinv3, ?_⟩
              · intro x hx
                exact hsub2 x (hsub1 x (List.mem_append_left _ hx))
              · intro m hm hdm
                rcases List.mem_cons.mp hm with rfl | hm2
                · exact ⟨hsub2 m (hsub1 m hself), hpath⟩
                · exact hwl2 m hm2 hdm
            | cycleErr c =>
              rw [hfst] at h
              have h2 : DfsRes.cycleErr c = DfsRes.ok v := h
              exact absurd h2 (by simp)
            | outOfFuel =>
              rw [hfst] at h
              have h2 : DfsRes.outOfFuel = DfsRes.ok v := h
              exact absurd h2 (by simp)

/-- `_validate_steps` is a decision procedure for dependency cycles: it
raises exactly when the declared graph has a cycle among defined names, and
the raised list is a genuine cycle. -/
theorem validate_steps_spec (l : List (String × List String)) :
    (hasCycle (buildGraph l) → ∃ cyc, validate_steps l = .cycleErr cyc ∧
        realCycle (buildGraph l) cyc) ∧
    (¬ hasCycle (buildGraph l) → ∃ v, validate_steps l = .ok v) := by
  have hnd := buildGraph_keys_nodup l
  have hnof : validate_steps l ≠ .outOfFuel := by
    show dfsList (buildGraph l) (dfsFuel (buildGraph l))
      ((buildGraph l).map Prod.fst) [] [] ≠ .outOfFuel
    apply dfsList_no_outOfFuel _ hnd
    have hm0 : dfsMeasure (buildGraph l) []
        = ((buildGraph l).map (fun p => 1 + p.2.length)).sum := by
      unfold dfsMeasure
      rw [List.filter_eq_self.mpr (by intro a _; simp)]
    rw [hm0, List.length_map]
    unfold dfsFuel
    omega
  cases hres : validate_steps l with
  | ok v =>
    constructor
    · intro hcyc
      exfalso
      have hres2 : dfsList (buildGraph l) (dfsFuel (buildGraph l))
          ((buildGraph l).map Prod.fst) [] [] = .ok v := hres
      obtain ⟨-, hinvf, hwl⟩ := dfsList_ok_spec (buildGraph l) _ _ _ _ _ hres2
        ⟨fun x hx => absurd hx (List.not_mem_nil x),
         fun x hx => absurd hx (List.not_mem_nil x),
         fun x hx => absurd hx (List.not_mem_nil x)⟩
      obtain ⟨m, hm⟩ := hcyc
      obtain ⟨c, hc, -⟩ := Relation.TransGen.head'_iff.mp hm
      obtain ⟨d, hd, -, -⟩ := hc
      have hdm : (alookup m (buildGraph l)).isSome = true := by rw [hd]; rfl
      obtain ⟨hmv, -⟩ := hwl m (alookup_isSome_mem m _ hdm) hdm
      exact hinvf.2.2 m hmv (List.not_mem_nil m) hm
    · intro _
      exact ⟨v, rfl⟩
  | cycleErr cyc =>
    have hres2 : dfsList (buildGraph l) (dfsFuel (buildGraph l))
        ((buildGraph l).map Prod.fst) [] [] = .cycleErr cyc := hres
    have hreal : realCycle (buildGraph l) cyc :=
      dfsList_cycleErr_spec (buildGraph l) _ _ _ _ _ hres2 List.chain'_nil
        (fun m hm hdm z hz => by simp at hz)
    constructor
    · intro _
      exact ⟨cyc, rfl, hreal⟩
    · intro hno
      exact absurd (realCycle_hasCycle _ _ hreal) hno
  | outOfFuel => exact absurd hres hnof

/-- C7 — a pipeline whose declared dependency graph has a cycle among
defined step names raises a circular-dependency error at construction, and
the list the error carries is a genuine cycle, so `run` can never be reached
on such a pipeline; a pipeline with an acyclic graph constructs
successfully.  (`_validate_steps` runs inside `Pipeline.__init__`; a raised
`ValueError` aborts construction, so no step is ever executed.) -/
theorem pipeline_cycle_detection (steps : List PStep) :
    (hasCycle (buildGraph (steps.map (fun s => (s.name, s.deps)))) →
      ∃ cyc, Pipeline_init steps = Except.error cyc ∧
        realCycle (buildGraph (steps.map (fun s => (s.name, s.deps)))) cyc) ∧
    (¬ hasCycle (buildGraph (steps.map (fun s => (s.name, s.deps)))) →
      Pipeline_init steps = Except.ok steps) := by
  obtain ⟨h1, h2⟩ := validate_steps_spec (steps.map (fun s => (s.name, s.deps)))
  constructor
  · intro hcyc
    obtain ⟨cyc, hv, hreal⟩ := h1 hcyc
    exact ⟨cyc, by simp only [Pipeline_init, hv], hreal⟩
  · intro hno
    obtain ⟨v, hv⟩ := h2 hno
    simp only [Pipeline_init, hv]

/-- Witness for `pipeline_cycle_detection`: the two-step circular pipeline
`a ↔ b` errors at construction with a genuine cycle, and the two
dependency-free steps construct successfully. -/
theorem pipeline_cycle_detection_witness :
    (∃ cyc, Pipeline_init [stepCycA, stepCycB] = Except.error cyc ∧
      realCycle (buildGraph ([stepCycA, stepCycB].map (fun s => (s.name, s.deps))))
        cyc) ∧
    Pipeline_init [stepFreeA, stepFreeB] = Except.ok [stepFreeA, stepFreeB] := by
  constructor
  · apply (pipeline_cycle_detection [stepCycA, stepCycB]).1
    refine ⟨"a", ?_⟩
    have hG : buildGraph ([stepCycA, stepCycB].map (fun s => (s.name, s.deps)))
        = [("a", ["b"]), ("b", ["a"])] := by decide
    rw [hG]
    have e1 : hasEdge [("a", ["b"]), ("b", ["a"])] "a" "b" :=
      ⟨["b"], by decide, by decide, by decide⟩
    have e2 : hasEdge [("a", ["b"]), ("b", ["a"])] "b" "a" :=
      ⟨["a"], by decide, by decide, by decide⟩
    exact Relation.TransGen.head e1 (Relation.TransGen.single e2)
  · apply (pipeline_cycle_detection [stepFreeA, stepFreeB]).2
    apply noEdge_no_cycle
    intro p hp
    have hG : buildGraph ([stepFreeA, stepFreeB].map (fun s => (s.name, s.deps)))
        = [("a", ([] : List String)), ("b", [])] := by decide
    rw [hG] at hp
    simp at hp
    rcases hp with rfl | rfl
    · rfl
    · rfl

end Pasture
